import Mathlib

/-!
# Verification of the streaming graph engine's stream source and update path

This file gives a shallow embedding, in Lean 4, of the parts of the
repository that the frozen claims are about:

* `include/binary_graph_stream.h`:
  - the single-reader `BinaryGraphStream` constructor,
  - the multi-reader `BinaryGraphStream_MT` (constructor, `register_query`,
    `on_demand_query`, `post_query_resume`, `read_data`),
  - the per-thread `MT_StreamReader::get_edge`,
* `include/graph.h`: `Graph::update` in both its `USE_EAGER_DSU` and
  non-eager compilations.

Machine integers are embedded as `Nat` with explicit `% 2^64` at each
operation where the C++ performs wrapping `uint64_t` arithmetic.  Fallible
constructors are embedded as functions into an outcome type.  The guarded
`uint64_t` subtractions of the source (always of the form `big - small`
under a branch that established `small ≤ big`) are embedded as truncated
`Nat` subtraction, which agrees with the source on the guarded branch.

Concurrency model: claims about a single call (`read_data`'s return value,
`get_edge`'s frame) are settled against sequential functions.  The
multi-reader delivery claims are settled against a small-step interleaving
semantics in which each reader contributes two kinds of atomic transitions:
the breakpoint guard of `read_data` (three atomic loads, whose combined
effect is shown sound to treat as one snapshot because `stream_off` is the
only concurrently written location read there), and the remainder of
`read_data` whose linearisation point is the `fetch_add`; everything after
the `fetch_add` depends only on the value obtained there and on locations
(`query_index`, `end_of_file`) that are constant while readers run, apart
from the store `stream_off = query_index` which always writes the same
value regardless of interleaving.  The local buffer walk of a reader is
private and is a third, purely local, kind of transition.
-/

/-- `sizeof(uint8_t) + 2 * sizeof(uint32_t)`: size of a binary encoded edge. -/
def edge_size : Nat := 9

/-- `sizeof(node_id_t) + sizeof(edge_id_t)`: size of the `[N: u32][M: u64]` header. -/
def header_size : Nat := 12

/-- Modulus of `uint64_t` arithmetic. -/
def U64 : Nat := 2 ^ 64

/-- `(uint64_t) -1`, the value of `query_index` when no query is registered. -/
def U64MAX : Nat := U64 - 1

/-- Modelled from the spec: the update kinds of `types.h` (which is not among
the sources); one wire byte, `0 = INSERT`, `1 = DELETE`, plus the in-memory
sentinel `BREAKPOINT` returned by `MT_StreamReader::get_edge` at a pause. -/
inductive UpdateType where
  | INSERT
  | DELETE
  | BREAKPOINT
deriving Repr, DecidableEq

/-- Modelled from the spec: the `Edge` pair type of `types.h` (not among the
sources), an ordered pair of 32-bit node identifiers as stored on the wire. -/
structure Edge where
  src : Nat
  dst : Nat
deriving Repr, DecidableEq

/-- Modelled from the spec: a stream update, `(edge, kind)`. -/
structure GraphUpdate where
  edge : Edge
  type : UpdateType
deriving Repr, DecidableEq

/-- The sentinel `{{0, 0}, BREAKPOINT}` returned by `get_edge` on a 0-byte fetch. -/
def breakpointUpd : GraphUpdate := ⟨⟨0, 0⟩, UpdateType.BREAKPOINT⟩

/-- The shared state of `BinaryGraphStream_MT`.  `stream_off`, `query_index`
and `query_block` are the `std::atomic` fields; `buf_size` and `end_of_file`
are set once by the constructor.  (`num_nodes` / `num_edges` only feed
`nodes()` / `edges()` and `end_of_file`, so they are not carried here.) -/
structure MTState where
  buf_size : Nat
  end_of_file : Nat
  stream_off : Nat
  query_index : Nat
  query_block : Bool
deriving Repr, DecidableEq

/-- The breakpoint guard opening `BinaryGraphStream_MT::read_data`:
`query_block || stream_off >= end_of_file || stream_off >= query_index`. -/
def readGuard (s : MTState) : Prop :=
  s.query_block = true ∨ s.stream_off ≥ s.end_of_file ∨ s.stream_off ≥ s.query_index

instance (s : MTState) : Decidable (readGuard s) := by
  unfold readGuard; infer_instance

/-- The body of `read_data` after the breakpoint guard: the
`stream_off.fetch_add(buf_size)` (wrapping `uint64_t`), the two re-checks of
the obtained `read_off` against `query_index` and `end_of_file`, and the
computation of `data_to_read` with the query clamp (which publishes
`stream_off = query_index`) followed by the EOF clamp.  Returns the new
shared state, the number of bytes read, and `read_off`. -/
def read_data_rest (s : MTState) : MTState × Nat × Nat :=
  let read_off := s.stream_off
  let s1 : MTState := { s with stream_off := (s.stream_off + s.buf_size) % U64 }
  if read_off ≥ s1.query_index then
    ({ s1 with stream_off := s1.query_index }, 0, read_off)
  else if read_off ≥ s1.end_of_file then
    (s1, 0, read_off)
  else
    let p : Nat × MTState :=
      if s1.query_index ≥ read_off ∧ s1.query_index < (read_off + s1.buf_size) % U64 then
        (s1.query_index - read_off, { s1 with stream_off := s1.query_index })
      else
        (s1.buf_size, s1)
    let data_to_read : Nat :=
      if (read_off + p.1) % U64 > p.2.end_of_file then p.2.end_of_file - read_off else p.1
    (p.2, data_to_read, read_off)

/-- `BinaryGraphStream_MT::read_data`, as executed by a single caller with no
interference: the breakpoint guard followed by `read_data_rest`.  The final
`pread` loop, whose requested byte count is the returned `data_to_read`, is
modelled separately (`read_loop`); under short-read-free I/O it delivers
exactly the returned count, which is what the sequential claims assume. -/
def read_data (s : MTState) : MTState × Nat × Nat :=
  if readGuard s then (s, 0, s.stream_off) else read_data_rest s

/-- `BinaryGraphStream_MT::register_query`: converts the update index to the
byte offset `header_size + query_idx * edge_size` (wrapping `uint64_t`
arithmetic) and stores it in `query_index` iff it is strictly greater than
the current `stream_off`. -/
def register_query (s : MTState) (query_idx : Nat) : MTState × Bool :=
  let byte_index := (header_size + query_idx * edge_size) % U64
  if byte_index ≤ s.stream_off then (s, false)
  else ({ s with query_index := byte_index }, true)

/-- `BinaryGraphStream_MT::on_demand_query`. -/
def on_demand_query (s : MTState) : MTState :=
  { s with query_block := true }

/-- `BinaryGraphStream_MT::post_query_resume`: clears the pause flag and
resets `query_index` to `(uint64_t) -1`. -/
def post_query_resume (s : MTState) : MTState :=
  { s with query_block := false, query_index := U64MAX }

/-- `BinaryGraphStream_MT::stream_reset`. -/
def stream_reset (s : MTState) : MTState :=
  { s with stream_off := header_size }

/-- The shared state established by the `BinaryGraphStream_MT` constructor for
a file declaring `M` edges, with requested buffer size `b`:
`buf_size = b - b % edge_size`, `end_of_file = M * edge_size + header_size`
(wrapping `uint64_t` arithmetic), `query_index = (uint64_t) -1`,
`stream_off = header_size`, `query_block = false`. -/
def freshMT (M b : Nat) : MTState :=
  { buf_size := b - b % edge_size
  , end_of_file := (M * edge_size + header_size) % U64
  , stream_off := header_size
  , query_index := U64MAX
  , query_block := false }

/-- The private state of one `MT_StreamReader`: the file offset of the block
currently held in its buffer (where the last successful `read_data` placed
data), the amount `data_in_buf` of valid bytes, and the cursor
`buf - start_buf`.  The buffer's byte contents are determined by
`bufStart` together with the file, so they are not duplicated here. -/
structure ReaderState where
  bufStart : Nat
  data_in_buf : Nat
  bufPos : Nat
deriving Repr, DecidableEq

/-- A freshly constructed `MT_StreamReader`: `data_in_buf = 0`, cursor at the
start of the (uninitialised) buffer. -/
def freshReader : ReaderState :=
  { bufStart := 0, data_in_buf := 0, bufPos := 0 }

/-- `MT_StreamReader::get_edge`, sequentially: if the buffer is exhausted,
refill via `read_data`; a 0-byte fetch returns the `BREAKPOINT` sentinel and
(because the C++ assigns the fetch result) sets `data_in_buf` to 0.
Otherwise parse the 9-byte record under the cursor and advance.  `file` is
the decoded record sequence of the stream file, so the record at byte offset
`o` is `file[(o - header_size) / edge_size]`. -/
def get_edge (file : List GraphUpdate) (s : MTState) (r : ReaderState) :
    GraphUpdate × MTState × ReaderState :=
  if r.bufPos ≥ r.data_in_buf then
    let res := read_data s
    if res.2.1 = 0 then
      (breakpointUpd, res.1, { r with data_in_buf := 0 })
    else
      (file.getD ((res.2.2 - header_size) / edge_size) breakpointUpd, res.1,
        { bufStart := res.2.2, data_in_buf := res.2.1, bufPos := edge_size })
  else
    (file.getD ((r.bufStart + r.bufPos - header_size) / edge_size) breakpointUpd, s,
      { r with bufPos := r.bufPos + edge_size })

/-- Outcome of a stream constructor. -/
inductive CtorOutcome where
  | ok
  | badStream
  | streamFailed
deriving Repr, DecidableEq

/-- The `std::ifstream` state observed by the `BinaryGraphStream` constructor:
read position and the fail/eof bits.  (`badbit`, set only on hard I/O
errors, is outside the file-length model and stays clear.) -/
structure IfStream where
  pos : Nat
  failbit : Bool
  eofbit : Bool
deriving Repr, DecidableEq

/-- `std::istream::read(buf, n)` against a file of `fileLen` bytes: a stream
already in a failed state extracts nothing; a read running past the end of
the file sets `failbit` and `eofbit`. -/
def ifstream_read (fileLen : Nat) (f : IfStream) (n : Nat) : IfStream :=
  if f.failbit then f
  else if f.pos + n ≤ fileLen then { f with pos := f.pos + n }
  else { f with pos := fileLen, failbit := true, eofbit := true }

/-- The `BinaryGraphStream` constructor: throws `BadStreamException` iff the
`ifstream` open fails.  It then issues the two header reads and the first
`read_data()` *without checking the header reads*; `read_data` throws
`StreamFailedException` iff `fail() && !eof()`, which a short or
past-the-end read never produces (those set `eofbit` together with
`failbit`), so a file shorter than the 12-byte header still constructs. -/
def bgs_construct (openOk : Bool) (fileLen b : Nat) : CtorOutcome :=
  if !openOk then CtorOutcome.badStream
  else
    let f0 : IfStream := ⟨0, false, false⟩
    let f1 := ifstream_read fileLen f0 4
    let f2 := ifstream_read fileLen f1 8
    let f3 := ifstream_read fileLen f2 (b - b % edge_size)
    if f3.failbit ∧ ¬(f3.eofbit = true) then CtorOutcome.streamFailed else CtorOutcome.ok

/-- The `BinaryGraphStream_MT` constructor: `open` yields `fd` (`-1` on
failure, a nonnegative descriptor otherwise); the constructor's own check is
`if (!stream_fd)`, which fires only for `fd = 0`.  The two header `read`
calls return `-1` on an invalid descriptor and `min(n, bytes remaining)`
otherwise, and a result other than the requested 4 resp. 8 bytes throws
`BadStreamException`. -/
def bgs_mt_construct (fd : Int) (fileLen : Nat) : CtorOutcome :=
  if fd = 0 then CtorOutcome.badStream
  else
    let r1 : Int := if fd < 0 then -1 else (min 4 fileLen : Nat)
    if r1 ≠ 4 then CtorOutcome.badStream
    else
      let r2 : Int := if fd < 0 then -1 else (min 8 (fileLen - 4) : Nat)
      if r2 ≠ 8 then CtorOutcome.badStream
      else CtorOutcome.ok

/-- The `pread` retry loop closing `read_data`, exactly as written in the
source:

    while (data_read < data_to_read) {
      int ret = pread(stream_fd, buf, data_to_read, read_off + data_read);
      if (ret == -1) throw StreamFailedException();
      data_read += ret;
    }

Note that each retry passes `buf` (not `buf + data_read`) and requests
`data_to_read` (not `data_to_read - data_read`) bytes.  The OS is modelled
by `oracle`: entry `j` caps the bytes the `j`-th `pread` call returns
(`none` = hard error, i.e. `-1`); once the oracle is exhausted every further
call returns in full.  Each call returns
`min(count requested, bytes before EOF, cap)` and writes that many bytes,
taken from the file at the requested offset, to the *start* of the buffer.
The buffer is represented as the list of file offsets whose bytes it holds
(sentinel offsets for uninitialised bytes), so "the buffer holds the
`data_to_read` bytes of the file starting at `read_off`" reads as
"`buf.take data_to_read = List.range' read_off data_to_read`".  `fuel`
bounds the number of iterations (the C++ loop has no bound; every run we
evaluate terminates within its fuel).  `none` = `StreamFailedException`. -/
def read_loop (fileLen data_to_read read_off : Nat) :
    Nat → List (Option Nat) → List Nat → Nat → Option (Nat × List Nat)
  | 0, _, buf, data_read => some (data_read, buf)
  | fuel + 1, oracle, buf, data_read =>
    if data_read < data_to_read then
      match oracle.headD (some data_to_read) with
      | none => none
      | some cap =>
        let ret := min (min data_to_read (fileLen - (read_off + data_read))) cap
        let buf2 := (List.range' (read_off + data_read) ret) ++ buf.drop ret
        read_loop fileLen data_to_read read_off fuel oracle.tail buf2 (data_read + ret)
    else some (data_read, buf)

/-- The error thrown by `Graph::update` when the CC algorithm has started. -/
inductive GraphError where
  | updateLocked
deriving Repr, DecidableEq

deriving instance DecidableEq for Except

/-- The engine state touched by `Graph::update`: the DSU arrays `parent` and
`size`, the eager spanning forest (one unordered set per vertex, as a
duplicate-free list), the `dsu_valid` and `update_locked` flags, and the
sequence of pairs handed to `gts->insert` (the guttering system is an
external component; we record exactly the inserts `update` issues). -/
structure GraphState where
  parent : List Nat
  size : List Nat
  spanning_forest : List (List Nat)
  dsu_valid : Bool
  update_locked : Bool
  gutters : List (Nat × Nat)
deriving Repr, DecidableEq

/-- Modelled from the spec: `Graph::get_parent` is declared in `graph.h` but
defined in `graph.cpp`, which is not among the sources.  Spec §4.E (Find):
path halving — while `parent[x] ≠ x`, set `parent[x] ← parent[parent[x]]`,
then `x ← parent[x]`; the halving write is a compare-exchange in eager mode,
which under a single caller always succeeds and is embedded as a plain
write.  Out-of-range indices read as self-parented (the C++ never indexes
out of range for in-range vertices).  `fuel` bounds the walk; on a valid
(acyclic) parent forest a fuel of `parent.length` reaches the root. -/
def get_parent (parent : List Nat) (x : Nat) : Nat → Nat × List Nat
  | 0 => (x, parent)
  | fuel + 1 =>
    let px := parent.getD x x
    if px = x then (x, parent)
    else
      let ppx := parent.getD px px
      get_parent (parent.set x ppx) ppx fuel

/-- The union loop of `Graph::update` (eager mode), lines 140–150 of
`graph.h`:

    node_id_t a = src, b = dst;
    while ((a = get_parent(a)) != (b = get_parent(b))) {
      if (size[a] < size[b]) std::swap(a, b);
      if (std::atomic_compare_exchange_weak(&parent[b], &b, a)) {
        size[a] += size[b];
        spanning_forest[src].insert(dst);
        break;
      }
    }

The weak compare-exchange is embedded with strong (sequential) semantics:
it succeeds iff `parent[b] = b`, and on failure stores the current
`parent[b]` into `b` (the expected-value out-parameter) before the loop
re-runs the finds.  `fuel` bounds the iterations; under a single caller on
a valid forest one iteration decides. -/
def eager_union_loop (src dst : Nat) :
    Nat → List Nat → List Nat → List (List Nat) → Nat → Nat →
    List Nat × List Nat × List (List Nat)
  | 0, p, sz, sf, _, _ => (p, sz, sf)
  | fuel + 1, p, sz, sf, a, b =>
    let ra := get_parent p a p.length
    let rb := get_parent ra.2 b ra.2.length
    if ra.1 = rb.1 then (rb.2, sz, sf)
    else
      let ab : Nat × Nat :=
        if sz.getD ra.1 0 < sz.getD rb.1 0 then (rb.1, ra.1) else (ra.1, rb.1)
      if rb.2.getD ab.2 ab.2 = ab.2 then
        (rb.2.set ab.2 ab.1,
         sz.set ab.1 (sz.getD ab.1 0 + sz.getD ab.2 0),
         sf.set src (dst :: sf.getD src []))
      else
        eager_union_loop src dst fuel rb.2 sz sf ab.1 (rb.2.getD ab.2 ab.2)

/-- `Graph::update`, compiled with `USE_EAGER_DSU`: fail with
`UpdateLockedException` if `update_locked`; insert `(u,v)`, swap, insert
`(v,u)` into the gutter; then, if `dsu_valid`, take `src = min, dst = max`
of the (swapped) edge and either invalidate (recorded-forest cycle) or run
the union loop.  The per-vertex lock `spanning_forest_mtx[src]` serialises
the block; it is embedded as the block being one atomic step.  Note the
source never inspects `upd.type` here. -/
def Graph.update_eager (st : GraphState) (upd : GraphUpdate) :
    Except GraphError GraphState :=
  if st.update_locked then Except.error GraphError.updateLocked
  else
    let u := upd.edge.src
    let v := upd.edge.dst
    let st1 : GraphState := { st with gutters := st.gutters ++ [(u, v), (v, u)] }
    if st1.dsu_valid then
      let src := min v u
      let dst := max v u
      if dst ∈ st1.spanning_forest.getD src [] then
        Except.ok { st1 with dsu_valid := false }
      else
        let r := eager_union_loop src dst (st1.parent.length + 1)
                   st1.parent st1.size st1.spanning_forest src dst
        Except.ok { st1 with parent := r.1, size := r.2.1, spanning_forest := r.2.2 }
    else
      Except.ok st1

/-- `Graph::update` without `USE_EAGER_DSU`: the same lock check and gutter
inserts, then `unlikely_if (dsu_valid) dsu_valid = false` — i.e. after any
update `dsu_valid` is false. -/
def Graph.update_noneager (st : GraphState) (upd : GraphUpdate) :
    Except GraphError GraphState :=
  if st.update_locked then Except.error GraphError.updateLocked
  else
    let u := upd.edge.src
    let v := upd.edge.dst
    Except.ok { st with gutters := st.gutters ++ [(u, v), (v, u)], dsu_valid := false }

/-- Validity of a union-find parent array, witnessed by a ranking function
`d` that strictly decreases along parent links. -/
def ParentOk (p : List Nat) (d : Nat → Nat) : Prop :=
  ∀ i, p.getD i i ≠ i → d (p.getD i i) < d i
/-! ## Interleaved multi-reader semantics (C1, C2)

A reader's `get_edge` interacts with the shared stream only inside
`read_data`.  Per the model described in the header, one `get_edge` call is
one or two atomic micro-steps: from `idle` with an exhausted buffer, the
breakpoint guard either returns `BREAKPOINT` (and zeroes `data_in_buf`) or
*arms* the reader, whose next micro-step executes `read_data_rest` — the
`fetch_add` and everything after it — and, on a non-zero fetch, delivers
the first record of the freshly filled block; from `idle` with data left,
`get_edge` delivers the record under the cursor without touching shared
state.  A scheduler, a list of reader indices, drives the system; this
exposes exactly the races the source's post-`fetch_add` re-checks guard
against (several readers passing the guard before any of them claims a
block). -/

/-- Program counter of a reader's in-flight `read_data`: `armed` sits between
the breakpoint guard and the `fetch_add`. -/
inductive RPhase where
  | idle
  | armed
deriving Repr, DecidableEq

/-- A reader plus its observable history: `del` is the list of record indices
its `get_edge` calls have returned, `bp` records whether it has ever
returned `BREAKPOINT`. -/
structure RdTrack where
  rd : ReaderState
  phase : RPhase
  del : List Nat
  bp : Bool
deriving Repr, DecidableEq

/-- The visible result of one micro-step. -/
inductive MicroOut where
  | silent
  | brk
  | upd : Nat → MicroOut
deriving Repr, DecidableEq

/-- One micro-step of one reader against the shared stream state. -/
def microStep (s : MTState) (t : RdTrack) : MTState × RdTrack × MicroOut :=
  match t.phase with
  | RPhase.idle =>
    if t.rd.bufPos ≥ t.rd.data_in_buf then
      if readGuard s then
        (s, { t with rd := { t.rd with data_in_buf := 0 }, bp := true }, MicroOut.brk)
      else
        (s, { t with phase := RPhase.armed }, MicroOut.silent)
    else
      (s, { t with
            rd := { t.rd with bufPos := t.rd.bufPos + edge_size }
            del := t.del ++ [(t.rd.bufStart + t.rd.bufPos - header_size) / edge_size] },
       MicroOut.upd ((t.rd.bufStart + t.rd.bufPos - header_size) / edge_size))
  | RPhase.armed =>
    let r := read_data_rest s
    if r.2.1 = 0 then
      (r.1, { t with
              phase := RPhase.idle
              rd := { t.rd with data_in_buf := 0 }
              bp := true },
       MicroOut.brk)
    else
      (r.1, { t with
              phase := RPhase.idle
              rd := ⟨r.2.2, r.2.1, edge_size⟩
              del := t.del ++ [(r.2.2 - header_size) / edge_size] },
       MicroOut.upd ((r.2.2 - header_size) / edge_size))

/-- Schedule reader `i` (out-of-range indices are no-ops). -/
def stepAt (s : MTState) : List RdTrack → Nat → MTState × List RdTrack × MicroOut
  | [], _ => (s, [], MicroOut.silent)
  | t :: rest, 0 =>
    ((microStep s t).1, (microStep s t).2.1 :: rest, (microStep s t).2.2)
  | t :: rest, i + 1 =>
    ((stepAt s rest i).1, t :: (stepAt s rest i).2.1, (stepAt s rest i).2.2)

/-- Shared stream plus all readers. -/
structure TrState where
  stream : MTState
  readers : List RdTrack
deriving Repr, DecidableEq

/-- Run a schedule. -/
def runTr (tr : TrState) : List Nat → TrState
  | [] => tr
  | i :: sched =>
    runTr ⟨(stepAt tr.stream tr.readers i).1, (stepAt tr.stream tr.readers i).2.1⟩ sched

/-- The outputs of a schedule, in order. -/
def runOuts (tr : TrState) : List Nat → List MicroOut
  | [] => []
  | i :: sched =>
    (stepAt tr.stream tr.readers i).2.2 ::
      runOuts ⟨(stepAt tr.stream tr.readers i).1, (stepAt tr.stream tr.readers i).2.1⟩ sched

/-- The record indices still sitting unread in a reader's buffer. -/
def pendList (r : ReaderState) : List Nat :=
  List.range' ((r.bufStart + r.bufPos - header_size) / edge_size)
    ((r.data_in_buf - r.bufPos) / edge_size)

/-- All record indices a reader has been handed: returned by `get_edge` plus
pending in its private buffer. -/
def handed (t : RdTrack) : Multiset Nat :=
  (t.del : Multiset Nat) + (pendList t.rd : Multiset Nat)

/-- Multiset of record indices handed to any reader. -/
def msum (tl : List RdTrack) : Multiset Nat :=
  (tl.map handed).sum

/-- All delivered record indices, reader by reader. -/
def delAll (tl : List RdTrack) : List Nat :=
  tl.foldr (fun t acc => t.del ++ acc) []

/-- Number of readers sitting between the guard and their `fetch_add`. -/
def armedCount (tl : List RdTrack) : Nat :=
  tl.countP (fun t => decide (t.phase = RPhase.armed))

/-- The initial system: a fresh stream and `k` fresh readers. -/
def initTr (M b k : Nat) : TrState :=
  ⟨freshMT M b, List.replicate k ⟨freshReader, RPhase.idle, [], false⟩⟩

/-- Fixed fields of the stream state during a run, plus alignment of
`stream_off` (every value it takes is `header_size` plus a multiple of
`edge_size`). -/
def GS (B EOF Q : Nat) (s : MTState) : Prop :=
  s.buf_size = B ∧ s.end_of_file = EOF ∧ s.query_index = Q ∧ s.query_block = false ∧
  header_size ≤ s.stream_off ∧ edge_size ∣ (s.stream_off - header_size)

/-- The byte prefix of the file claimed by fetches so far. -/
def clOf (cap : Nat) (s : MTState) : Nat := min s.stream_off cap

/-- The record prefix of the file claimed by fetches so far. -/
def clR (cap : Nat) (s : MTState) : Nat := (clOf cap s - header_size) / edge_size

/-- Per-reader invariant: buffer alignment, strictly increasing delivery
(`del` followed by the pending block is pairwise increasing), and the
breakpoint facts — a reader that has reported `BREAKPOINT` has an empty
buffer, the claimed prefix has reached the boundary `cap`, and it is not
armed (so it will never fetch again before a resume). -/
def PerR (cap cl : Nat) (t : RdTrack) : Prop :=
  edge_size ∣ t.rd.data_in_buf ∧ edge_size ∣ t.rd.bufPos ∧
  (t.rd.data_in_buf ≠ 0 →
    header_size ≤ t.rd.bufStart ∧ edge_size ∣ (t.rd.bufStart - header_size) ∧
    edge_size ≤ t.rd.bufPos ∧ t.rd.bufPos ≤ t.rd.data_in_buf) ∧
  List.Pairwise (· < ·) (t.del ++ pendList t.rd) ∧
  (t.bp = true → pendList t.rd = [] ∧ cl = cap) ∧
  (t.bp = true → t.phase = RPhase.idle) ∧
  (t.phase = RPhase.armed → t.rd.bufPos ≥ t.rd.data_in_buf)

/-- Side conditions on the run's parameters: block size a positive multiple
of the record size, `end_of_file` the aligned file end, `query_index`
either unset (`2^64 - 1`) or a registered aligned boundary within the file,
and room below `2^64` for every reader to overshoot once. -/
def Params (B EOF Q k : Nat) : Prop :=
  (∃ c, 1 ≤ c ∧ B = edge_size * c) ∧
  (∃ M, EOF = header_size + edge_size * M) ∧
  (Q = U64MAX ∨ (∃ q, Q = header_size + edge_size * q ∧ Q ≤ EOF)) ∧
  EOF + (k + 2) * B < U64MAX

/-- The system invariant: stream facts, reader count, the overshoot bound on
`stream_off` (each armed reader will add at most one `buf_size` after the
claimed prefix has reached `cap`), the per-reader facts, and the exactness
property — the indices handed out are *exactly* the claimed record prefix,
each exactly once. -/
def SysInv (B EOF Q k : Nat) (tr : TrState) : Prop :=
  GS B EOF Q tr.stream ∧ tr.readers.length = k ∧
  tr.stream.stream_off + B * armedCount tr.readers < min EOF Q + B * (k + 1) ∧
  (∀ t ∈ tr.readers, PerR (min EOF Q) (clOf (min EOF Q) tr.stream) t) ∧
  msum tr.readers = Multiset.range (clR (min EOF Q) tr.stream)

/-- A concrete three-record stream file used by the C1 witness. -/
def fileW : List GraphUpdate :=
  [⟨⟨0, 1⟩, UpdateType.INSERT⟩, ⟨⟨1, 2⟩, UpdateType.INSERT⟩, ⟨⟨2, 3⟩, UpdateType.DELETE⟩]

/-! ## Single-call characterisation of `read_data` -/

/-- Shape of `read_data_rest` when the obtained `read_off = stream_off` is
still below both the query boundary and the end of file: `data_to_read`
starts from `buf_size`, is clamped to `query_index - read_off` when
`query_index` falls inside the block (publishing `stream_off =
query_index`), then clamped to `end_of_file - read_off`. -/
theorem read_data_rest_eq (s : MTState)
    (hQ : s.stream_off < s.query_index) (hEOF : s.stream_off < s.end_of_file)
    (hov : s.stream_off + s.buf_size < U64) :
    read_data_rest s =
      ({ s with stream_off := if s.query_index < s.stream_off + s.buf_size
                              then s.query_index else s.stream_off + s.buf_size },
       (if s.stream_off + (if s.query_index < s.stream_off + s.buf_size
                           then s.query_index - s.stream_off else s.buf_size) > s.end_of_file
         then s.end_of_file - s.stream_off
         else (if s.query_index < s.stream_off + s.buf_size
               then s.query_index - s.stream_off else s.buf_size)),
       s.stream_off) := by
  have hmod1 : (s.stream_off + s.buf_size) % U64 = s.stream_off + s.buf_size :=
    Nat.mod_eq_of_lt hov
  unfold read_data_rest
  simp only [hmod1]
  rw [if_neg (by omega), if_neg (by omega)]
  by_cases hq : s.query_index < s.stream_off + s.buf_size
  · rw [if_pos ⟨by omega, by omega⟩]
    simp only
    have h2 : s.stream_off + (s.query_index - s.stream_off) = s.query_index := by omega
    have h3 : s.query_index % U64 = s.query_index := Nat.mod_eq_of_lt (by omega)
    rw [if_pos hq]
    simp only [h2, h3]
    rw [if_pos hq, h2]
  · rw [if_neg (by intro h; exact hq (by omega))]
    simp only [hmod1]
    rw [if_neg hq, if_neg hq]

/-- Shape of `read_data_rest` when the obtained `read_off` is at or past the
query boundary: `stream_off` is clamped down to `query_index`, 0 bytes. -/
theorem read_data_rest_pastQ (s : MTState) (h : s.stream_off ≥ s.query_index) :
    read_data_rest s = ({ s with stream_off := s.query_index }, 0, s.stream_off) := by
  unfold read_data_rest
  dsimp only
  rw [if_pos h]

/-- Shape of `read_data_rest` when the obtained `read_off` is below the query
boundary but at or past the end of file: 0 bytes, the `fetch_add` stands. -/
theorem read_data_rest_pastEOF (s : MTState)
    (hq : s.stream_off < s.query_index) (h : s.stream_off ≥ s.end_of_file) :
    read_data_rest s =
      ({ s with stream_off := (s.stream_off + s.buf_size) % U64 }, 0, s.stream_off) := by
  unfold read_data_rest
  dsimp only
  rw [if_neg (by omega), if_pos h]

/-- Claim C3 (amended): provided the buffer holds at least one record
(`edge_size ≤ buf_size`; the constructor produces `buf_size = 0` for a
requested size below 9 bytes, and then `read_data` returns 0
unconditionally) and the `fetch_add` does not wrap, a single uninterfered
call of `BinaryGraphStream_MT::read_data` returns 0 bytes exactly when the
breakpoint guard holds — `query_block`, or `stream_off ≥ end_of_file`, or
`stream_off ≥ query_index`; the post-`fetch_add` re-checks compare
`read_off = stream_off` against the same bounds, so they are subsumed — and
otherwise reads at file offset `read_off = stream_off` the amount obtained
from `buf_size` by clamping first to `query_index - read_off` when
`query_index ∈ [read_off, read_off + buf_size)` (publishing
`stream_off = query_index`) and then to `end_of_file - read_off`, returning
that amount. -/
theorem C3_read_data_characterization (s : MTState)
    (hB : edge_size ≤ s.buf_size) (hov : s.stream_off + s.buf_size < U64) :
    ((read_data s).2.1 = 0 ↔
      (s.query_block = true ∨ s.stream_off ≥ s.end_of_file ∨ s.stream_off ≥ s.query_index)) ∧
    (¬ (s.query_block = true ∨ s.stream_off ≥ s.end_of_file ∨ s.stream_off ≥ s.query_index) →
      read_data s =
        ({ s with stream_off := if s.query_index < s.stream_off + s.buf_size
                                then s.query_index else s.stream_off + s.buf_size },
         (if s.stream_off + (if s.query_index < s.stream_off + s.buf_size
                             then s.query_index - s.stream_off else s.buf_size) > s.end_of_file
           then s.end_of_file - s.stream_off
           else (if s.query_index < s.stream_off + s.buf_size
                 then s.query_index - s.stream_off else s.buf_size)),
         s.stream_off)) := by
  have hguard : readGuard s ↔
      (s.query_block = true ∨ s.stream_off ≥ s.end_of_file ∨ s.stream_off ≥ s.query_index) :=
    Iff.rfl
  by_cases hg : readGuard s
  · constructor
    · rw [read_data, if_pos hg]
      simpa using hg
    · intro hng; exact absurd (hguard.mp hg) hng
  · have hng := hg
    rw [readGuard] at hng
    push_neg at hng
    obtain ⟨hqb, hEOF, hQ⟩ := hng
    have heq := read_data_rest_eq s hQ hEOF hov
    have hrd : read_data s = read_data_rest s := by rw [read_data, if_neg hg]
    constructor
    · rw [hrd, heq]
      constructor
      · intro h0
        exfalso
        have hB9 : (9 : Nat) ≤ s.buf_size := hB
        dsimp only at h0
        split_ifs at h0 <;> omega
      · intro h; exact absurd (hguard.mpr h) hg
    · intro _
      rw [hrd, heq]

/-- Claim C3 counterexample: a `BinaryGraphStream_MT` built with a requested
buffer below one record (`b = 8` gives `buf_size = 0`) makes `read_data`
return 0 bytes although no breakpoint condition of the claim holds — the
guard is false and the re-checked `read_off = stream_off = 12` is below both
`query_index` and `end_of_file`. -/
theorem C3_zero_bufsize_cex :
    (read_data (freshMT 1 8)).2.1 = 0 ∧
    ¬ ((freshMT 1 8).query_block = true ∨
       (freshMT 1 8).stream_off ≥ (freshMT 1 8).end_of_file ∨
       (freshMT 1 8).stream_off ≥ (freshMT 1 8).query_index) := by
  decide

/-- Witness for `C3_read_data_characterization` at a concrete stream state. -/
theorem C3_read_data_characterization_witness :
    (edge_size ≤ (freshMT 3 18).buf_size ∧
      (freshMT 3 18).stream_off + (freshMT 3 18).buf_size < U64) ∧
    ((read_data (freshMT 3 18)).2.1 = 0 ↔
      ((freshMT 3 18).query_block = true ∨
       (freshMT 3 18).stream_off ≥ (freshMT 3 18).end_of_file ∨
       (freshMT 3 18).stream_off ≥ (freshMT 3 18).query_index)) := by
  refine ⟨⟨by decide, by decide⟩, ?_⟩
  exact (C3_read_data_characterization (freshMT 3 18) (by decide) (by decide)).1

/-! ## `register_query` at index 0 (C9) -/

/-- Claim C9 counterexample: on a freshly constructed multi-reader stream
(`stream_off = header_size = 12`), `register_query(0)` computes
`byte_index = 12 ≤ stream_off` and therefore returns `false`, registering
nothing — the claim asserts it returns `true` and registers the query. -/
theorem C9_q0_rejected_cex :
    register_query (freshMT 10 27) 0 = (freshMT 10 27, false) := by
  decide

/-- Claim C9 (amended): `register_query(0)` on a fresh stream is rejected —
it returns `false` and leaves the stream unchanged (so no reader stops at
index 0 on its account).  On a fresh stream, `register_query(q)` (with the
byte conversion not wrapping) succeeds precisely for `q ≥ 1`, in which case
it stores the byte offset `header_size + q * edge_size` in `query_index`. -/
theorem C9_register_query_zero (M b q : Nat)
    (hnw : header_size + q * edge_size < U64) :
    register_query (freshMT M b) 0 = (freshMT M b, false) ∧
    ((register_query (freshMT M b) q).2 = true ↔ 1 ≤ q) ∧
    (1 ≤ q → register_query (freshMT M b) q =
      ({ freshMT M b with query_index := header_size + q * edge_size }, true)) := by
  have hmod : (header_size + q * edge_size) % U64 = header_size + q * edge_size :=
    Nat.mod_eq_of_lt hnw
  have hso : (freshMT M b).stream_off = header_size := rfl
  refine ⟨rfl, ?_, ?_⟩
  · unfold register_query
    rw [hmod, hso]
    by_cases hq : 1 ≤ q
    · rw [if_neg (by unfold header_size edge_size; omega)]
      simpa using hq
    · rw [if_pos (by unfold header_size edge_size; omega)]
      simpa using hq
  · intro hq
    unfold register_query
    rw [hmod, hso, if_neg (by unfold header_size edge_size; omega)]
    rfl

/-- Witness for `C9_register_query_zero`. -/
theorem C9_register_query_zero_witness :
    (header_size + 2 * edge_size < U64) ∧
    ((register_query (freshMT 10 27) 2).2 = true ↔ 1 ≤ 2) := by
  exact ⟨by decide, (C9_register_query_zero 10 27 2 (by decide)).2.1⟩

/-! ## `get_edge` during a pause (C10) -/

/-- Claim C10 counterexample: a reader whose buffer is exhausted with
`data_in_buf = 9` receives the `BREAKPOINT` sentinel during a pause, but its
`data_in_buf` is *not* unchanged — the C++ assigns the 0-byte fetch result
to it. -/
theorem C10_data_in_buf_cex :
    (get_edge [] ⟨18, 30, 30, U64MAX, true⟩ ⟨12, 9, 9⟩).2.2.data_in_buf = 0 ∧
    (⟨12, 9, 9⟩ : ReaderState).data_in_buf = 9 := by
  decide

/-- Claim C10 (amended): whenever the 0-byte fetch guard holds (query pause,
registered boundary reached, or end of file) and the reader's buffer is
exhausted, `MT_StreamReader::get_edge` returns the sentinel
`{{0, 0}, BREAKPOINT}`, leaves the shared stream state, the buffer contents
and the buffer cursor unchanged, and sets `data_in_buf` to 0 (so it is
unchanged only when it was already 0).  Repeated calls during the pause
return the sentinel again from the same state, and after
`post_query_resume` of an on-demand pause the reader's next `get_edge`
behaves exactly as it would on the resumed stream had the pause never been
observed — no update is lost, duplicated or skipped at that reader. -/
theorem C10_breakpoint_frame (file : List GraphUpdate) (s : MTState) (r : ReaderState)
    (hg : readGuard s) (hx : r.bufPos ≥ r.data_in_buf) :
    get_edge file s r = (breakpointUpd, s, { r with data_in_buf := 0 }) ∧
    get_edge file s { r with data_in_buf := 0 } =
      (breakpointUpd, s, { r with data_in_buf := 0 }) ∧
    get_edge file (post_query_resume (on_demand_query s)) { r with data_in_buf := 0 } =
      get_edge file { s with query_block := false, query_index := U64MAX } r := by
  have hrd : read_data s = (s, 0, s.stream_off) := by rw [read_data, if_pos hg]
  refine ⟨?_, ?_, ?_⟩
  · rw [get_edge, if_pos hx, hrd]
    rfl
  · rw [get_edge, if_pos (by simp), hrd]
    rfl
  · have hs : post_query_resume (on_demand_query s) =
        { s with query_block := false, query_index := U64MAX } := rfl
    rw [hs]
    rw [get_edge, if_pos (by simp), get_edge, if_pos hx]

/-- Witness for `C10_breakpoint_frame` at a concrete paused stream. -/
theorem C10_breakpoint_frame_witness :
    (readGuard ⟨18, 30, 12, U64MAX, true⟩ ∧
      (⟨12, 9, 9⟩ : ReaderState).bufPos ≥ (⟨12, 9, 9⟩ : ReaderState).data_in_buf) ∧
    get_edge [] ⟨18, 30, 12, U64MAX, true⟩ ⟨12, 9, 9⟩ =
      (breakpointUpd, ⟨18, 30, 12, U64MAX, true⟩, ⟨12, 0, 9⟩) := by
  refine ⟨⟨by decide, by decide⟩, ?_⟩
  exact (C10_breakpoint_frame [] ⟨18, 30, 12, U64MAX, true⟩ ⟨12, 9, 9⟩
    (by decide) (by decide)).1

/-! ## Stream construction (C8) -/

/-- Claim C8 counterexample: a file that opens but is empty — so the 12-byte
header cannot be read — still constructs a `BinaryGraphStream` without any
exception: the constructor never checks the header `ifstream::read` calls,
and the first `read_data()` only throws on `fail() && !eof()`, which a short
read at end of file never produces. -/
theorem C8_short_header_ok_cex :
    bgs_construct true 0 1024 = CtorOutcome.ok := by
  decide

/-- Claim C8 (amended): `BinaryGraphStream`'s constructor raises `BadStream`
exactly when the `ifstream` open fails; with the open succeeding it
constructs without error regardless of whether the 12-byte header could be
read.  `BinaryGraphStream_MT` raises `BadStream` when either header `read`
returns short — which covers unopenable files, because `open` returns `-1`
and `read` on that descriptor returns `-1` (the constructor's own
`if (!stream_fd)` check only fires for descriptor 0) — and constructs
without error iff the descriptor is valid and the file holds at least the
12 header bytes. -/
lemma bgs_mt_construct_posfd (fd : Int) (hfd : 0 < fd) (len : Nat) :
    bgs_mt_construct fd len =
      if 12 ≤ len then CtorOutcome.ok else CtorOutcome.badStream := by
  simp only [bgs_mt_construct]
  rw [if_neg (show ¬ fd = 0 by omega), if_neg (show ¬ fd < 0 by omega),
      if_neg (show ¬ fd < 0 by omega)]
  by_cases h : 12 ≤ len
  · rw [if_neg (by push_cast; omega), if_neg (by push_cast; omega), if_pos h]
  · rw [if_neg h]
    by_cases h4 : len < 4
    · rw [if_pos (by push_cast; omega)]
    · rw [if_neg (by push_cast; omega), if_pos (by push_cast; omega)]

theorem C8_ctor_errors (len b : Nat) (fd : Int) (hfd : 0 < fd) :
    (bgs_construct false len b = CtorOutcome.badStream) ∧
    (bgs_construct true len b = CtorOutcome.ok) ∧
    (bgs_mt_construct (-1) len = CtorOutcome.badStream) ∧
    (bgs_mt_construct fd len = CtorOutcome.ok ↔ 12 ≤ len) ∧
    (bgs_mt_construct fd len = CtorOutcome.badStream ↔ len < 12) := by
  refine ⟨rfl, ?_, ?_, ?_, ?_⟩
  · unfold bgs_construct ifstream_read
    simp only [Bool.not_true, if_false, if_neg]
    split_ifs <;> simp_all
  · unfold bgs_mt_construct
    norm_num
  · rw [bgs_mt_construct_posfd fd hfd len]
    split_ifs with h <;> simp_all
  · rw [bgs_mt_construct_posfd fd hfd len]
    split_ifs with h <;> simp_all

/-- Witness for `C8_ctor_errors`. -/
theorem C8_ctor_errors_witness :
    ((0 : Int) < 3) ∧ (bgs_mt_construct 3 12 = CtorOutcome.ok ↔ 12 ≤ 12) := by
  exact ⟨by decide, (C8_ctor_errors 12 1024 3 (by decide)).2.2.2.1⟩

/-! ## The `pread` retry loop (C4) -/

/-- Claim C4 is contradicted by the code: on a short read the loop retries
with the *same* buffer pointer and the *full* `data_to_read` count.  First
failing input: a 30-byte file (`M = 2` records), `data_to_read = 18` at
`read_off = 12`, the OS returning 9 bytes on the first `pread`.  The loop
reports 18 bytes read, but the buffer holds file bytes `[21, 30)` followed
by stale bytes — not the 18 file bytes starting at offset 12 as the claim
states.  Second failing input: a 48-byte file with `data_to_read = 18`
(e.g. truncated by a registered query) and a first `pread` of 9 bytes: the
retry reads 18 further bytes, the loop returns 27 ≠ `data_to_read`, running
past the query boundary.  (The buffer starts as sentinel offsets
`1000, ...`; a `none` oracle entry — `pread` returning `-1` — is the only
way the loop raises `StreamFailed`, which is the one part of the claim the
code meets.) -/
theorem C4_short_read_retry_bug :
    read_loop 30 18 12 3 [some 9] (List.range' 1000 18) 0 =
      some (18, List.range' 21 9 ++ List.range' 1009 9) ∧
    (List.range' 21 9 ++ List.range' 1009 9).take 18 ≠ List.range' 12 18 ∧
    read_loop 48 18 12 3 [some 9] (List.range' 1000 18) 0 = some (27, List.range' 21 18) ∧
    read_loop 30 18 12 3 [none] (List.range' 1000 18) 0 = none := by
  refine ⟨by decide, by decide, by decide, by decide⟩

/-! ## Eager DSU union (C5) and deletion handling (C6), update locking (C7) -/

/-- `List.set` then `getD` at the written (in-range) index. -/
lemma getD_set_self (l : List Nat) (i v d : Nat) (h : i < l.length) :
    (l.set i v).getD i d = v := by
  rw [List.getD_eq_getElem?_getD, List.getElem?_set_eq_of_lt _ h]
  rfl

/-- `List.set` then `getD` at a different index. -/
lemma getD_set_ne (l : List Nat) (i j v d : Nat) (h : i ≠ j) :
    (l.set i v).getD j d = l.getD j d := by
  rw [List.getD_eq_getElem?_getD, List.getElem?_set_ne h, ← List.getD_eq_getElem?_getD]

/-- Path halving preserves the array length. -/
lemma length_get_parent (fuel : Nat) : ∀ (p : List Nat) (x : Nat),
    (get_parent p x fuel).2.length = p.length := by
  induction fuel with
  | zero => intro p x; rfl
  | succ f ih =>
    intro p x
    simp only [get_parent]
    split_ifs with h
    · rfl
    · rw [ih]
      exact List.length_set p x _

/-- Path halving only writes non-root slots, so roots stay roots. -/
lemma get_parent_keeps_roots (fuel : Nat) : ∀ (p : List Nat) (x y : Nat),
    p.getD y y = y → (get_parent p x fuel).2.getD y y = y := by
  induction fuel with
  | zero => intro p x y hy; exact hy
  | succ f ih =>
    intro p x y hy
    simp only [get_parent]
    split_ifs with h
    · exact hy
    · apply ih
      by_cases hxy : x = y
      · subst hxy; exact absurd hy h
      · rw [getD_set_ne _ _ _ _ _ hxy]; exact hy

/-- One halving write preserves validity of the parent array. -/
lemma ParentOk_set_halve (p : List Nat) (d : Nat → Nat) (hok : ParentOk p d) (x : Nat)
    (hx : p.getD x x ≠ x) :
    ParentOk (p.set x (p.getD (p.getD x x) (p.getD x x))) d := by
  intro i hi
  have hxlen : x < p.length := by
    by_contra hge
    exact hx (List.getD_eq_default _ _ (by omega))
  by_cases hix : i = x
  · subst hix
    rw [getD_set_self _ _ _ _ hxlen] at hi ⊢
    have h1 : d (p.getD i i) < d i := hok i hx
    by_cases hpp : p.getD (p.getD i i) (p.getD i i) = p.getD i i
    · rw [hpp]; exact h1
    · have h2 := hok (p.getD i i) hpp
      omega
  · rw [getD_set_ne _ _ _ _ _ (fun h => hix h.symm)] at hi ⊢
    exact hok i hi

/-- With fuel above the rank of `x`, `get_parent` lands on a root and
preserves validity. -/
lemma get_parent_root (d : Nat → Nat) (fuel : Nat) : ∀ (p : List Nat) (x : Nat),
    ParentOk p d → d x < fuel →
    (get_parent p x fuel).2.getD (get_parent p x fuel).1 (get_parent p x fuel).1 =
        (get_parent p x fuel).1 ∧
      ParentOk (get_parent p x fuel).2 d := by
  induction fuel with
  | zero => intro p x hok hf; omega
  | succ f ih =>
    intro p x hok hf
    simp only [get_parent]
    split_ifs with h
    · exact ⟨h, hok⟩
    · have hok' := ParentOk_set_halve p d hok x h
      have h1 : d (p.getD x x) < d x := hok x h
      have h2 : d (p.getD (p.getD x x) (p.getD x x)) < f := by
        by_cases hpp : p.getD (p.getD x x) (p.getD x x) = p.getD x x
        · rw [hpp]; omega
        · have := hok (p.getD x x) hpp
          omega
      exact ih _ _ hok' h2

/-- Under a single caller on a valid parent forest the union loop decides in
one iteration: both finds land on roots, so the compare-exchange on the
(root) loser slot succeeds immediately.  The result is: no change beyond
path halving if the two roots agree, otherwise the size-ordered link with
`size[winner] += size[loser]` and `dst` recorded in the spanning forest. -/
lemma eager_union_loop_spec (src dst : Nat) (fuel : Nat) (p sz : List Nat)
    (sf : List (List Nat)) (a b : Nat) (d : Nat → Nat)
    (hok : ParentOk p d) (hda : d a < p.length) (hdb : d b < p.length) :
    eager_union_loop src dst (fuel + 1) p sz sf a b =
      (if (get_parent p a p.length).1 =
          (get_parent (get_parent p a p.length).2 b (get_parent p a p.length).2.length).1
       then ((get_parent (get_parent p a p.length).2 b
               (get_parent p a p.length).2.length).2, sz, sf)
       else
        (let ra1 := (get_parent p a p.length).1
         let rb := get_parent (get_parent p a p.length).2 b (get_parent p a p.length).2.length
         let hi := if sz.getD ra1 0 < sz.getD rb.1 0 then rb.1 else ra1
         let lo := if sz.getD ra1 0 < sz.getD rb.1 0 then ra1 else rb.1
         (rb.2.set lo hi, sz.set hi (sz.getD hi 0 + sz.getD lo 0),
          sf.set src (dst :: sf.getD src [])))) := by
  have hplen : 0 < fuel + 1 := Nat.succ_pos fuel
  simp only [eager_union_loop]
  rcases hra : get_parent p a p.length with ⟨a1, p1⟩
  have hrootA : p1.getD a1 a1 = a1 ∧ ParentOk p1 d := by
    have := get_parent_root d p.length p a hok hda
    rw [hra] at this
    exact this
  have hp1len : p1.length = p.length := by
    have := length_get_parent p.length p a
    rw [hra] at this
    exact this
  rcases hrb : get_parent p1 b p1.length with ⟨b1, p2⟩
  have hrootB : p2.getD b1 b1 = b1 ∧ ParentOk p2 d := by
    have := get_parent_root d p1.length p1 b hrootA.2 (by omega)
    rw [hrb] at this
    exact this
  have hrootA2 : p2.getD a1 a1 = a1 := by
    have := get_parent_keeps_roots p1.length p1 b a1 hrootA.1
    rw [hrb] at this
    exact this
  by_cases heq : a1 = b1
  · rw [if_pos heq, if_pos heq]
  · rw [if_neg heq, if_neg heq]
    by_cases hsz : sz.getD a1 0 < sz.getD b1 0
    · rw [if_pos hsz]
      simp only [if_pos hsz]
      rw [if_pos hrootA2]
    · rw [if_neg hsz]
      simp only [if_neg hsz]
      rw [if_pos hrootB.1]

/-- Claim C5: in eager-DSU mode, for an insertion of `{u, v}` processed by
`Graph::update` while `dsu_valid` holds (and updates are not locked), with
`src = min(u,v)`, `dst = max(u,v)`, on a valid parent forest (ranking
function `d` bounded by the array length): if `dst` is already in
`spanning_forest[src]` then `dsu_valid` is set false and nothing else
changes beyond the two gutter inserts; otherwise the union loop computes
the roots of the two endpoints, stops if they are equal, swaps so that the
larger-`size` root wins, and compare-exchanges `parent[loser]` from itself
to the winner — which under a single caller succeeds at once, adding
`size[loser]` to `size[winner]` and inserting `dst` into
`spanning_forest[src]` (on a failed compare-exchange the source retries the
finds; sequentially that branch is unreachable).  `get_parent` is modelled
from the spec (path halving), as `graph.cpp` is not among the sources. -/
theorem C5_eager_dsu_union (st : GraphState) (upd : GraphUpdate) (d : Nat → Nat)
    (hlock : st.update_locked = false) (hvalid : st.dsu_valid = true)
    (_htype : upd.type = UpdateType.INSERT)
    (hok : ParentOk st.parent d) (hd : ∀ i, d i < st.parent.length) :
    (max upd.edge.src upd.edge.dst ∈
        st.spanning_forest.getD (min upd.edge.src upd.edge.dst) [] →
      Graph.update_eager st upd = Except.ok
        { st with
          gutters := st.gutters ++
            [(upd.edge.src, upd.edge.dst), (upd.edge.dst, upd.edge.src)],
          dsu_valid := false }) ∧
    (max upd.edge.src upd.edge.dst ∉
        st.spanning_forest.getD (min upd.edge.src upd.edge.dst) [] →
      ((get_parent st.parent (min upd.edge.src upd.edge.dst) st.parent.length).1 =
        (get_parent (get_parent st.parent (min upd.edge.src upd.edge.dst) st.parent.length).2
          (max upd.edge.src upd.edge.dst)
          (get_parent st.parent (min upd.edge.src upd.edge.dst) st.parent.length).2.length).1 →
        Graph.update_eager st upd = Except.ok
          { st with
            gutters := st.gutters ++
              [(upd.edge.src, upd.edge.dst), (upd.edge.dst, upd.edge.src)],
            parent :=
              (get_parent
                (get_parent st.parent (min upd.edge.src upd.edge.dst) st.parent.length).2
                (max upd.edge.src upd.edge.dst)
                (get_parent st.parent (min upd.edge.src upd.edge.dst)
                  st.parent.length).2.length).2 }) ∧
      ((get_parent st.parent (min upd.edge.src upd.edge.dst) st.parent.length).1 ≠
        (get_parent (get_parent st.parent (min upd.edge.src upd.edge.dst) st.parent.length).2
          (max upd.edge.src upd.edge.dst)
          (get_parent st.parent (min upd.edge.src upd.edge.dst) st.parent.length).2.length).1 →
        Graph.update_eager st upd = Except.ok
          { st with
            gutters := st.gutters ++
              [(upd.edge.src, upd.edge.dst), (upd.edge.dst, upd.edge.src)],
            parent :=
              (let ra1 := (get_parent st.parent (min upd.edge.src upd.edge.dst)
                  st.parent.length).1
               let rb := get_parent
                 (get_parent st.parent (min upd.edge.src upd.edge.dst) st.parent.length).2
                 (max upd.edge.src upd.edge.dst)
                 (get_parent st.parent (min upd.edge.src upd.edge.dst) st.parent.length).2.length
               let hi := if st.size.getD ra1 0 < st.size.getD rb.1 0 then rb.1 else ra1
               let lo := if st.size.getD ra1 0 < st.size.getD rb.1 0 then ra1 else rb.1
               rb.2.set lo hi),
            size :=
              (let ra1 := (get_parent st.parent (min upd.edge.src upd.edge.dst)
                  st.parent.length).1
               let rb := get_parent
                 (get_parent st.parent (min upd.edge.src upd.edge.dst) st.parent.length).2
                 (max upd.edge.src upd.edge.dst)
                 (get_parent st.parent (min upd.edge.src upd.edge.dst) st.parent.length).2.length
               let hi := if st.size.getD ra1 0 < st.size.getD rb.1 0 then rb.1 else ra1
               let lo := if st.size.getD ra1 0 < st.size.getD rb.1 0 then ra1 else rb.1
               st.size.set hi (st.size.getD hi 0 + st.size.getD lo 0)),
            spanning_forest :=
              st.spanning_forest.set (min upd.edge.src upd.edge.dst)
                (max upd.edge.src upd.edge.dst ::
                  st.spanning_forest.getD (min upd.edge.src upd.edge.dst) []) })) := by
  have hmin : min upd.edge.dst upd.edge.src = min upd.edge.src upd.edge.dst :=
    Nat.min_comm _ _
  have hmax : max upd.edge.dst upd.edge.src = max upd.edge.src upd.edge.dst :=
    Nat.max_comm _ _
  unfold Graph.update_eager
  simp only [hlock, hvalid, Bool.false_eq_true, if_false, if_true, hmin, hmax]
  set src := min upd.edge.src upd.edge.dst with hsrc
  set dst := max upd.edge.src upd.edge.dst with hdst
  constructor
  · intro hmem
    rw [if_pos hmem]
  · intro hmem
    rw [if_neg hmem]
    rw [eager_union_loop_spec src dst st.parent.length st.parent st.size
        st.spanning_forest src dst d hok (hd src) (hd dst)]
    constructor
    · intro heq
      rw [if_pos heq]
    · intro hne
      rw [if_neg hne]

/-- Witness for `C5_eager_dsu_union`: inserting `{0, 1}` into a fresh 2-vertex
eager DSU links the two roots, doubles the winner's size and records the
tree edge. -/
theorem C5_eager_dsu_union_witness :
    (ParentOk [0, 1] (fun _ => 0) ∧ (∀ i : Nat, (fun _ => 0) i < ([0, 1] : List Nat).length)) ∧
    Graph.update_eager ⟨[0, 1], [1, 1], [[], []], true, false, []⟩
        ⟨⟨0, 1⟩, UpdateType.INSERT⟩ =
      Except.ok ⟨[0, 0], [2, 1], [[1], []], true, false, [(0, 1), (1, 0)]⟩ := by
  have hok : ParentOk [0, 1] (fun _ => 0) := by
    intro i hi
    rcases i with _ | _ | n <;> exact absurd rfl hi
  have hd : ∀ i : Nat, (fun _ => 0) i < ([0, 1] : List Nat).length := by
    intro i; exact Nat.zero_lt_two
  refine ⟨⟨hok, hd⟩, ?_⟩
  have h := (C5_eager_dsu_union ⟨[0, 1], [1, 1], [[], []], true, false, []⟩
      ⟨⟨0, 1⟩, UpdateType.INSERT⟩ (fun _ => 0) rfl rfl rfl hok hd).2 (by decide)
  exact (h.2 (by decide)).trans (by decide)

/-- Claim C6 counterexample: in eager-DSU mode a `DELETE` of `{0, 1}` on a
fresh valid DSU runs the union path exactly like an insertion — after the
call `dsu_valid` is still `true` (and the two components were even linked),
contradicting "any deletion invalidates the DSU, in eager-DSU mode just as
in non-eager mode". -/
theorem C6_delete_keeps_dsu_valid_cex :
    Graph.update_eager ⟨[0, 1], [1, 1], [[], []], true, false, []⟩
        ⟨⟨0, 1⟩, UpdateType.DELETE⟩ =
      Except.ok ⟨[0, 0], [2, 1], [[1], []], true, false, [(0, 1), (1, 0)]⟩ := by
  decide

/-- Claim C6 (amended): in non-eager mode every processed update — deletions
included — leaves `dsu_valid = false`.  In eager mode `Graph::update` never
inspects the update's kind: a `Delete` is processed exactly like an
`Insert`, so `dsu_valid` becomes false only on the recorded-forest cycle
branch, and a deletion of an edge not recorded in the spanning forest
leaves `dsu_valid` true. -/
theorem C6_deletion_invalidation :
    (∀ (st : GraphState) (upd : GraphUpdate) (st' : GraphState),
      Graph.update_noneager st upd = Except.ok st' → st'.dsu_valid = false) ∧
    (∀ (st : GraphState) (e : Edge),
      Graph.update_eager st ⟨e, UpdateType.DELETE⟩ =
        Graph.update_eager st ⟨e, UpdateType.INSERT⟩) := by
  constructor
  · intro st upd st' h
    unfold Graph.update_noneager at h
    split_ifs at h
    cases h
    rfl
  · intro st e
    rfl

/-- Witness for `C6_deletion_invalidation`. -/
theorem C6_deletion_invalidation_witness :
    (Graph.update_noneager ⟨[0, 1], [1, 1], [[], []], true, false, []⟩
        ⟨⟨0, 1⟩, UpdateType.DELETE⟩ =
      Except.ok ⟨[0, 1], [1, 1], [[], []], false, false, [(0, 1), (1, 0)]⟩) ∧
    (⟨[0, 1], [1, 1], [[], []], false, false, [(0, 1), (1, 0)]⟩ :
        GraphState).dsu_valid = false := by
  refine ⟨by decide, ?_⟩
  exact C6_deletion_invalidation.1 ⟨[0, 1], [1, 1], [[], []], true, false, []⟩
    ⟨⟨0, 1⟩, UpdateType.DELETE⟩ _ (by decide)

/-- Claim C7: `Graph::update` (either compilation) raises `UpdateLocked` if
and only if `update_locked` is set, and then it raises before touching any
engine state — in the embedding, the error is returned with no successor
state, the lock check preceding every effect in the source.  Otherwise it
inserts both orientations `(u, v)` and `(v, u)` of the edge into the
guttering system, in that order. -/
theorem C7_update_locked_gating (st : GraphState) (upd : GraphUpdate) :
    (st.update_locked = true →
      Graph.update_eager st upd = Except.error GraphError.updateLocked ∧
      Graph.update_noneager st upd = Except.error GraphError.updateLocked) ∧
    (st.update_locked = false →
      (∃ st', Graph.update_eager st upd = Except.ok st' ∧
        st'.gutters = st.gutters ++
          [(upd.edge.src, upd.edge.dst), (upd.edge.dst, upd.edge.src)]) ∧
      Graph.update_noneager st upd = Except.ok
        { st with
          gutters := st.gutters ++
            [(upd.edge.src, upd.edge.dst), (upd.edge.dst, upd.edge.src)],
          dsu_valid := false }) := by
  constructor
  · intro h
    constructor
    · rw [Graph.update_eager, if_pos h]
    · rw [Graph.update_noneager, if_pos h]
  · intro h
    constructor
    · rw [Graph.update_eager, if_neg (by simp [h])]
      dsimp only
      split_ifs with h1 h2
      · exact ⟨_, rfl, rfl⟩
      · exact ⟨_, rfl, rfl⟩
      · exact ⟨_, rfl, rfl⟩
    · rw [Graph.update_noneager, if_neg (by simp [h])]

/-- Witness for `C7_update_locked_gating`. -/
theorem C7_update_locked_gating_witness :
    ((⟨[0], [1], [[]], true, true, []⟩ : GraphState).update_locked = true) ∧
    Graph.update_eager ⟨[0], [1], [[]], true, true, []⟩ ⟨⟨0, 1⟩, UpdateType.INSERT⟩ =
      Except.error GraphError.updateLocked := by
  refine ⟨by decide, ?_⟩
  exact ((C7_update_locked_gating ⟨[0], [1], [[]], true, true, []⟩
    ⟨⟨0, 1⟩, UpdateType.INSERT⟩).1 (by decide)).1


lemma msum_cons (t : RdTrack) (R : List RdTrack) : msum (t :: R) = handed t + msum R := by
  simp [msum]

lemma msum_append (L R : List RdTrack) : msum (L ++ R) = msum L + msum R := by
  simp [msum]

lemma armedCount_cons (t : RdTrack) (R : List RdTrack) :
    armedCount (t :: R) = (if t.phase = RPhase.armed then 1 else 0) + armedCount R := by
  unfold armedCount
  rw [List.countP_cons]
  by_cases h : t.phase = RPhase.armed <;> simp [h, Nat.add_comm]

lemma armedCount_append (L R : List RdTrack) :
    armedCount (L ++ R) = armedCount L + armedCount R := by
  simp [armedCount, List.countP_append]

lemma armedCount_le_length (tl : List RdTrack) : armedCount tl ≤ tl.length := by
  exact List.countP_le_length _

lemma PerR_mono (cap cl cl' : Nat) (hle : cl ≤ cl') (hcap : cl' ≤ cap) (t : RdTrack)
    (h : PerR cap cl t) : PerR cap cl' t := by
  obtain ⟨h1, h2, h3, h4, h5, h6, h7⟩ := h
  exact ⟨h1, h2, h3, h4, fun hb => ⟨(h5 hb).1, by have := (h5 hb).2; omega⟩, h6, h7⟩

lemma pendList_eq_nil (r : ReaderState) (h : r.bufPos ≥ r.data_in_buf) : pendList r = [] := by
  unfold pendList
  have h0 : (r.data_in_buf - r.bufPos) / edge_size = 0 := by unfold edge_size; omega
  rw [h0, List.range'_zero]

lemma rest_succ (s : MTState) (c : Nat) (hc1 : 1 ≤ c) (hcB : s.buf_size = edge_size * c)
    (hQP : s.query_index = U64MAX ∨
      (∃ q, s.query_index = header_size + edge_size * q ∧ s.query_index ≤ s.end_of_file))
    (hs12 : header_size ≤ s.stream_off)
    (hsal : edge_size ∣ (s.stream_off - header_size))
    (hso : s.stream_off + s.buf_size < U64MAX)
    (h1 : s.stream_off < s.query_index) (h2 : s.stream_off < s.end_of_file) :
    (read_data_rest s).2.2 = s.stream_off ∧
    (read_data_rest s).2.1 =
      min s.buf_size (min s.end_of_file s.query_index - s.stream_off) ∧
    (read_data_rest s).1.buf_size = s.buf_size ∧
    (read_data_rest s).1.end_of_file = s.end_of_file ∧
    (read_data_rest s).1.query_index = s.query_index ∧
    (read_data_rest s).1.query_block = s.query_block ∧
    header_size ≤ (read_data_rest s).1.stream_off ∧
    edge_size ∣ ((read_data_rest s).1.stream_off - header_size) ∧
    s.stream_off < (read_data_rest s).1.stream_off ∧
    (read_data_rest s).1.stream_off ≤ s.stream_off + s.buf_size ∧
    min (read_data_rest s).1.stream_off (min s.end_of_file s.query_index) =
      min (s.stream_off + s.buf_size) (min s.end_of_file s.query_index) := by
  have hov : s.stream_off + s.buf_size < U64 := by
    have hU : U64MAX < U64 := by unfold U64MAX U64; omega
    omega
  have hB9 : 9 ≤ s.buf_size := by unfold edge_size at hcB; omega
  have hBdvd : (9 : Nat) ∣ s.buf_size := by unfold edge_size at hcB; omega
  rw [read_data_rest_eq s h1 h2 hov]
  by_cases hq : s.query_index < s.stream_off + s.buf_size
  · have hQ2 : ∃ q, s.query_index = header_size + edge_size * q ∧
        s.query_index ≤ s.end_of_file := by
      rcases hQP with h | h
      · exfalso
        rw [h] at hq
        unfold U64MAX U64 at hq
        unfold U64MAX U64 at hso
        omega
      · exact h
    obtain ⟨q, hQeq, hQle⟩ := hQ2
    simp only [if_pos hq]
    have hng : ¬ (s.stream_off + (s.query_index - s.stream_off) > s.end_of_file) := by
      omega
    rw [if_neg hng]
    refine ⟨trivial, by omega, trivial, trivial, trivial, trivial, by omega, ?_,
      by omega, by omega, by omega⟩
    rw [hQeq]
    unfold edge_size header_size
    omega
  · simp only [if_neg hq]
    refine ⟨trivial, by split_ifs with h3 <;> omega, trivial, trivial, trivial, trivial,
      by omega, ?_, by omega, by omega, trivial⟩
    unfold header_size at hs12
    unfold edge_size header_size at hsal ⊢
    omega

lemma cap_aligned (B EOF Q k : Nat) (hP : Params B EOF Q k) :
    header_size ≤ min EOF Q ∧ edge_size ∣ (min EOF Q - header_size) := by
  obtain ⟨_, ⟨M, hEOF⟩, hQex, hov⟩ := hP
  rcases hQex with h | ⟨q, hq, hle⟩
  · have hm : min EOF Q = EOF := by
      subst h
      unfold U64MAX U64 at hov ⊢
      omega
    rw [hm, hEOF]
    unfold edge_size header_size
    omega
  · have hm : min EOF Q = Q := by omega
    rw [hm, hq]
    unfold edge_size header_size
    omega

lemma multiset_range_add (a m : Nat) :
    Multiset.range (a + m) = Multiset.range a + (List.range' a m : Multiset Nat) := by
  rw [← Multiset.coe_range, ← Multiset.coe_range, Multiset.coe_add, Multiset.coe_eq_coe]
  have h2 := List.range'_append_1 0 a m
  simp only [Nat.zero_add] at h2
  rw [List.range_eq_range', List.range_eq_range', h2, Nat.add_comm]

/-- Preservation of the per-step facts by one micro-step: the stream facts
persist, the claimed prefix grows monotonically, the overshoot bound holds
with the stepped reader’s phase, the stepped reader’s invariant holds at the
new claimed prefix, and the records newly handed to the reader are exactly
the records newly claimed from the file. -/
lemma microStep_pres (B EOF Q k : Nat) (hP : Params B EOF Q k)
    (s : MTState) (t : RdTrack) (A : Nat) (hA : A + 1 ≤ k)
    (hgs : GS B EOF Q s)
    (hphi : s.stream_off + B * (A + (if t.phase = RPhase.armed then 1 else 0)) <
      min EOF Q + B * (k + 1))
    (hper : PerR (min EOF Q) (clOf (min EOF Q) s) t)
    (hbound : ∀ x ∈ t.del ++ pendList t.rd, x < clR (min EOF Q) s) :
    GS B EOF Q (microStep s t).1 ∧
    clOf (min EOF Q) s ≤ clOf (min EOF Q) (microStep s t).1 ∧
    (microStep s t).1.stream_off +
        B * (A + (if (microStep s t).2.1.phase = RPhase.armed then 1 else 0)) <
      min EOF Q + B * (k + 1) ∧
    PerR (min EOF Q) (clOf (min EOF Q) (microStep s t).1) (microStep s t).2.1 ∧
    ∃ dl : List Nat,
      handed (microStep s t).2.1 = handed t + (dl : Multiset Nat) ∧
      (Multiset.range (clR (min EOF Q) (microStep s t).1) : Multiset Nat) =
        Multiset.range (clR (min EOF Q) s) + (dl : Multiset Nat) := by
  obtain ⟨⟨c, hc1, hcB⟩, ⟨M, hEOF⟩, hQex, hovP⟩ := hP
  obtain ⟨hbs, hef, hqi, hqb, hs12, hsal⟩ := hgs
  obtain ⟨hd9, hp9, hbuf, hpair, hbp1, hbp2, harm⟩ := hper
  have hcapal := cap_aligned B EOF Q k ⟨⟨c, hc1, hcB⟩, ⟨M, hEOF⟩, hQex, hovP⟩
  have hB9 : 9 ≤ B := by unfold edge_size at hcB; omega
  have hBd : (9 : Nat) ∣ B := by unfold edge_size at hcB; omega
  have hcap12 : (12 : Nat) ≤ min EOF Q := hcapal.1
  have hcapd : (9 : Nat) ∣ (min EOF Q - 12) := hcapal.2
  clear hcapal
  replace hsal : (9 : Nat) ∣ (s.stream_off - 12) := hsal
  replace hs12 : (12 : Nat) ≤ s.stream_off := hs12
  replace hd9 : (9 : Nat) ∣ t.rd.data_in_buf := hd9
  replace hp9 : (9 : Nat) ∣ t.rd.bufPos := hp9
  replace hbuf : t.rd.data_in_buf ≠ 0 →
      (12 : Nat) ≤ t.rd.bufStart ∧ (9 : Nat) ∣ (t.rd.bufStart - 12) ∧
      (9 : Nat) ≤ t.rd.bufPos ∧ t.rd.bufPos ≤ t.rd.data_in_buf := hbuf
  have hU : U64MAX + 1 = U64 := by unfold U64MAX U64; omega
  replace hcB : B = 9 * c := hcB
  replace hEOF : EOF = 12 + 9 * M := hEOF
  replace hQex : Q = U64MAX ∨ ∃ q, Q = 12 + 9 * q ∧ Q ≤ EOF := hQex
  rcases hph : t.phase with _ | _
  · -- idle
    simp only [microStep, hph]
    by_cases hx : t.rd.bufPos ≥ t.rd.data_in_buf
    · rw [if_pos hx]
      have hpnil : pendList t.rd = [] := pendList_eq_nil t.rd hx
      by_cases hgd : readGuard s
      · -- breakpoint at the guard
        rw [if_pos hgd]
        have hcl : clOf (min EOF Q) s = min EOF Q := by
          unfold clOf
          rcases hgd with h | h | h
          · rw [hqb] at h; exact absurd h (by simp)
          · rw [hef] at h
            exact Nat.min_eq_right (le_trans (Nat.min_le_left _ _) h)
          · rw [hqi] at h
            exact Nat.min_eq_right (le_trans (Nat.min_le_right _ _) h)
        have hpnil2 : pendList { t.rd with data_in_buf := 0 } = [] := by
          apply pendList_eq_nil; simp
        refine ⟨⟨hbs, hef, hqi, hqb, hs12, hsal⟩, le_refl _, ?_, ?_, [], ?_, ?_⟩
        · dsimp only
          rw [if_neg (by simp)]
          simpa [hph] using hphi
        · refine ⟨by simp [edge_size], by simpa using hp9, by simp, ?_, ?_, ?_, ?_⟩
          · simpa [hpnil2, hpnil] using hpair
          · intro _; exact ⟨hpnil2, hcl⟩
          · intro _; rfl
          · intro h; exact absurd h (by simp)
        · unfold handed
          rw [hpnil, hpnil2]
          simp
        · simp
      · -- arm
        rw [if_neg hgd]
        unfold readGuard at hgd
        push_neg at hgd
        have hso_lt : s.stream_off < min EOF Q := by
          obtain ⟨h1, h2, h3⟩ := hgd
          rw [hef] at h2
          rw [hqi] at h3
          exact lt_min h2 h3
        refine ⟨⟨hbs, hef, hqi, hqb, hs12, hsal⟩, le_refl _, ?_, ?_, [], ?_, ?_⟩
        · dsimp only
          rw [if_pos rfl]
          have hmul : B * (A + 1) ≤ B * (k + 1) :=
            Nat.mul_le_mul_left B (by omega)
          omega
        · have hbpf : t.bp = false := by
            by_contra hbp
            have hbp' : t.bp = true := by
              cases h : t.bp
              · exact absurd h hbp
              · rfl
            have := (hbp1 hbp').2
            unfold clOf at this
            omega
          refine ⟨hd9, hp9, hbuf, hpair, ?_, ?_, ?_⟩
          · intro h; rw [hbpf] at h; exact absurd h (by simp)
          · intro h; rw [hbpf] at h; exact absurd h (by simp)
          · intro _; exact hx
        · unfold handed
          simp
        · simp
    · -- deliver from the private buffer
      rw [if_neg hx]
      push_neg at hx
      have hdne : t.rd.data_in_buf ≠ 0 := by omega
      obtain ⟨hb12, hbal, hpge9, hple⟩ := hbuf hdne
      have h9b : (9 : Nat) ∣ (t.rd.bufStart - 12) := hbal
      have hcnt : (t.rd.data_in_buf - t.rd.bufPos) / edge_size =
          ((t.rd.data_in_buf - (t.rd.bufPos + edge_size)) / edge_size) + 1 := by
        unfold edge_size
        omega
      have hidx : (t.rd.bufStart + (t.rd.bufPos + edge_size) - header_size) / edge_size =
          (t.rd.bufStart + t.rd.bufPos - header_size) / edge_size + 1 := by
        unfold edge_size header_size
        omega
      have hpends : pendList t.rd =
          (t.rd.bufStart + t.rd.bufPos - header_size) / edge_size ::
            pendList { t.rd with bufPos := t.rd.bufPos + edge_size } := by
        unfold pendList
        simp only [hcnt, hidx]
        rw [List.range'_succ]
      refine ⟨⟨hbs, hef, hqi, hqb, hs12, hsal⟩, le_refl _, ?_, ?_, [], ?_, ?_⟩
      · dsimp only
        rw [if_neg (by simp [hph])]
        simpa [hph] using hphi
      · have hppair : List.Pairwise (· < ·)
            ((t.del ++ [(t.rd.bufStart + t.rd.bufPos - header_size) / edge_size]) ++
              pendList { t.rd with bufPos := t.rd.bufPos + edge_size }) := by
          rw [List.append_assoc]
          simpa [hpends] using hpair
        refine ⟨by simpa using hd9, ?_, ?_, hppair, ?_, ?_, ?_⟩
        · simp only []
          unfold edge_size
          omega
        · intro _
          refine ⟨hb12, hbal, ?_, ?_⟩
          · simp only []
            unfold edge_size
            omega
          · simp only []
            unfold edge_size
            omega
        · intro hbp
          exfalso
          have := (hbp1 hbp).1
          rw [hpends] at this
          exact List.noConfusion this
        · intro _; rfl
        · intro h; exact absurd h (by simp)
      · unfold handed
        dsimp only
        rw [hpends]
        simp
      · simp
  · -- armed
    simp only [microStep, hph]
    have hone : (if t.phase = RPhase.armed then 1 else 0) = 1 := if_pos hph
    rw [hone] at hphi
    have hexp : B * (A + 1) = B * A + B := by ring
    have hb1 : B * (k + 1) ≤ (k + 2) * B := by
      calc B * (k + 1) = (k + 1) * B := Nat.mul_comm _ _
        _ ≤ (k + 2) * B := Nat.mul_le_mul_right B (by omega)
    have hsoB : s.stream_off + B < U64MAX := by omega
    have hpnil : pendList t.rd = [] := pendList_eq_nil t.rd (harm hph)
    by_cases hq1 : s.stream_off ≥ s.query_index
    · -- fetch_add raced past a registered query: clamp and report a breakpoint
      rw [read_data_rest_pastQ s hq1]
      dsimp only
      rw [if_pos rfl]
      have hQcase : ∃ q, Q = header_size + edge_size * q ∧ Q ≤ EOF := by
        rcases hQex with h | h
        · exfalso
          rw [hqi, h] at hq1
          omega
        · exact h
      obtain ⟨q, hQeq, hQle⟩ := hQcase
      have hcapQ : min EOF Q = Q := Nat.min_eq_right hQle
      have hsoQ : Q ≤ s.stream_off := by rw [hqi] at hq1; exact hq1
      have hclold : clOf (min EOF Q) s = min EOF Q := by
        unfold clOf
        rw [hcapQ]
        exact Nat.min_eq_right hsoQ
      have hclnew : clOf (min EOF Q) { s with stream_off := s.query_index } = min EOF Q := by
        unfold clOf
        dsimp only
        rw [hqi, hcapQ]
        exact Nat.min_eq_right (le_refl _)
      have hpnil2 : pendList { t.rd with data_in_buf := 0 } = [] := by
        apply pendList_eq_nil; simp
      refine ⟨⟨hbs, hef, ?_, hqb, ?_, ?_⟩, by rw [hclold, hclnew], ?_, ?_, [], ?_, ?_⟩
      · dsimp only
        exact hqi
      · dsimp only
        rw [hqi]
        omega
      · dsimp only
        rw [hqi, hQeq]
        unfold edge_size header_size
        omega
      · dsimp only
        rw [if_neg (by simp)]
        simp only [Nat.add_zero]
        have hmul0 : B * (A + 1) ≤ B * (k + 1) := Nat.mul_le_mul_left B (by omega)
        rw [hqi]
        omega
      · refine ⟨by simp [edge_size], by simpa using hp9, by simp, ?_, ?_, ?_, ?_⟩
        · simpa [hpnil2, hpnil] using hpair
        · intro _; exact ⟨hpnil2, hclnew⟩
        · intro _; rfl
        · intro h; exact absurd h (by simp)
      · unfold handed
        rw [hpnil, hpnil2]
        simp
      · rw [(by rfl : clR (min EOF Q) s = (clOf (min EOF Q) s - header_size) / edge_size)]
        rw [(by rfl : clR (min EOF Q) { s with stream_off := s.query_index } =
          (clOf (min EOF Q) { s with stream_off := s.query_index } - header_size) / edge_size)]
        rw [hclold, hclnew]
        simp
    · push_neg at hq1
      by_cases hq2 : s.stream_off ≥ s.end_of_file
      · -- fetch_add raced past the end of file: report a breakpoint
        rw [read_data_rest_pastEOF s hq1 hq2]
        dsimp only
        rw [if_pos rfl]
        have hmodB : (s.stream_off + s.buf_size) % U64 = s.stream_off + s.buf_size := by
          apply Nat.mod_eq_of_lt
          rw [hbs]
          omega
        have hcaple : min EOF Q ≤ s.stream_off := by
          rw [hef] at hq2
          omega
        have hclold : clOf (min EOF Q) s = min EOF Q := by
          unfold clOf
          exact Nat.min_eq_right hcaple
        have hclnew : clOf (min EOF Q)
            { s with stream_off := (s.stream_off + s.buf_size) % U64 } = min EOF Q := by
          unfold clOf
          dsimp only
          rw [hmodB, hbs]
          exact Nat.min_eq_right (by omega)
        have hpnil2 : pendList { t.rd with data_in_buf := 0 } = [] := by
          apply pendList_eq_nil; simp
        refine ⟨⟨hbs, hef, hqi, hqb, ?_, ?_⟩, by rw [hclold, hclnew], ?_, ?_, [], ?_, ?_⟩
        · dsimp only
          rw [hmodB]
          unfold header_size
          omega
        · dsimp only
          rw [hmodB, hbs]
          unfold edge_size header_size
          omega
        · dsimp only
          rw [if_neg (by simp), hmodB, hbs]
          simp only [Nat.add_zero]
          omega
        · refine ⟨by simp [edge_size], by simpa using hp9, by simp, ?_, ?_, ?_, ?_⟩
          · simpa [hpnil2, hpnil] using hpair
          · intro _; exact ⟨hpnil2, hclnew⟩
          · intro _; rfl
          · intro h; exact absurd h (by simp)
        · unfold handed
          rw [hpnil, hpnil2]
          simp
        · rw [(by rfl : clR (min EOF Q) s = (clOf (min EOF Q) s - header_size) / edge_size)]
          rw [(by rfl : clR (min EOF Q)
              { s with stream_off := (s.stream_off + s.buf_size) % U64 } =
            (clOf (min EOF Q) { s with stream_off := (s.stream_off + s.buf_size) % U64 } -
              header_size) / edge_size)]
          rw [hclold, hclnew]
          simp
      · -- successful fetch
        push_neg at hq2
        have hsoltcap : s.stream_off < min EOF Q := by
          have hq2a := hq2
          have hq1a := hq1
          rw [hef] at hq2a
          rw [hqi] at hq1a
          exact lt_min hq2a hq1a
        have hclRs : clR (min EOF Q) s = (s.stream_off - 12) / 9 := by
          unfold clR clOf
          rw [Nat.min_eq_left (le_of_lt hsoltcap)]
          rfl
        have hcapso9 : 9 ≤ min EOF Q - s.stream_off := by omega
        have hsoBuf : s.stream_off + s.buf_size < U64MAX := by rw [hbs]; omega
        have hQP : s.query_index = U64MAX ∨ ∃ q,
            s.query_index = header_size + edge_size * q ∧
            s.query_index ≤ s.end_of_file := by
          rw [hqi, hef]
          exact hQex
        have hcB2 : s.buf_size = edge_size * c := by rw [hbs]; exact hcB
        obtain ⟨hoff, hn, hbs2, hef2, hqi2, hqb2, h122, hal2, hlt2, hle2, hminq⟩ :=
          rest_succ s c hc1 hcB2 hQP hs12 hsal hsoBuf hq1 hq2
        clear hQP hcB2
        rw [hbs, hef, hqi] at hn
        rw [hef, hqi, hbs] at hminq
        rw [hbs] at hle2
        set s2 := (read_data_rest s).1 with hs2def
        set n2 := (read_data_rest s).2.1 with hn2def
        clear_value s2 n2
        replace hal2 : (9 : Nat) ∣ (s2.stream_off - 12) := hal2
        replace h122 : (12 : Nat) ≤ s2.stream_off := h122
        have hne0 : n2 ≠ 0 := by
          rw [hn]
          clear * - hB9 hBd hcapd hcap12 hsal hs12 hsoltcap hcapso9
          omega
        have hnal : (9 : Nat) ∣ n2 := by
          rw [hn]
          clear * - hB9 hBd hcapd hcap12 hsal hs12 hsoltcap hcapso9
          omega
        have hn9 : 9 ≤ n2 := by
          rw [hn]
          clear * - hB9 hBd hcapd hcap12 hsal hs12 hsoltcap hcapso9
          omega
        have e1 : (s.stream_off + edge_size - header_size) / edge_size =
            (s.stream_off - header_size) / edge_size + 1 := by
          unfold edge_size header_size
          clear * - hsal hs12
          omega
        have e2 : (n2 - edge_size) / edge_size = n2 / edge_size - 1 := by
          unfold edge_size
          clear * - hnal hn9
          omega
        have e3 : n2 / edge_size = (n2 / edge_size - 1) + 1 := by
          unfold edge_size
          clear * - hnal hn9
          omega
        have hpend2 : pendList ⟨s.stream_off, n2, edge_size⟩ =
            List.range' ((s.stream_off - header_size) / edge_size + 1)
              (n2 / edge_size - 1) := by
          unfold pendList
          dsimp only
          rw [e1, e2]
        have hrange : List.range' ((s.stream_off - header_size) / edge_size)
              (n2 / edge_size) =
            (s.stream_off - header_size) / edge_size ::
              List.range' ((s.stream_off - header_size) / edge_size + 1)
                (n2 / edge_size - 1) := by
          conv_lhs => rw [e3]
          rw [List.range'_succ]
        have hpairdel : List.Pairwise (· < ·) t.del := by
          have := hpair
          rw [hpnil, List.append_nil] at this
          exact this
        have hdelbound : ∀ x ∈ t.del, x < (s.stream_off - header_size) / edge_size := by
          intro x hx
          have := hbound x (by rw [hpnil, List.append_nil]; exact hx)
          rw [hclRs] at this
          exact this
        have hclR2 : clR (min EOF Q) s2 =
            clR (min EOF Q) s + n2 / edge_size := by
          rw [hclRs, hn]
          unfold clR clOf
          rw [hminq]
          unfold edge_size header_size
          clear * - hB9 hBd hcapd hcap12 hsal hs12 hsoltcap
          omega
        rw [if_neg hne0]
        dsimp only
        rw [hoff]
        refine ⟨⟨by rw [hbs2]; exact hbs, by rw [hef2]; exact hef, by rw [hqi2]; exact hqi,
            by rw [hqb2]; exact hqb, h122, hal2⟩, ?_, ?_, ?_,
          List.range' ((s.stream_off - header_size) / edge_size)
            (n2 / edge_size), ?_, ?_⟩
        · unfold clOf
          rw [hminq]
          omega
        · rw [if_neg (by simp)]
          simp only [Nat.add_zero]
          omega
        · refine ⟨hnal, by simp, ?_, ?_, ?_, ?_, ?_⟩
          · intro _
            exact ⟨hs12, hsal, le_refl _, hn9⟩
          · dsimp only
            rw [hpend2, List.pairwise_append]
            refine ⟨?_, ?_, ?_⟩
            · rw [List.pairwise_append]
              refine ⟨hpairdel, List.pairwise_singleton _ _, ?_⟩
              intro x hx y hy
              rw [List.mem_singleton] at hy
              subst hy
              exact hdelbound x hx
            · exact List.pairwise_lt_range' _ _
            · intro x hx y hy
              rw [List.mem_append] at hx
              have hy2 : (s.stream_off - header_size) / edge_size + 1 ≤ y :=
                (List.mem_range'_1.mp hy).1
              rcases hx with hx | hx
              · have := hdelbound x hx
                omega
              · rw [List.mem_singleton] at hx
                subst hx
                omega
          · intro hbp
            exfalso
            have := (hbp1 hbp).2
            unfold clOf at this
            omega
          · intro _; rfl
          · intro h; exact absurd h (by simp)
        · unfold handed
          dsimp only
          rw [hpnil, hpend2, hrange]
          simp
        · rw [hclR2, multiset_range_add, hclRs]
          rfl

lemma stepAt_getElem (s : MTState) (tl : List RdTrack) (i : Nat) (hi : i < tl.length) :
    stepAt s tl i =
      ((microStep s tl[i]).1,
       tl.take i ++ (microStep s tl[i]).2.1 :: tl.drop (i + 1),
       (microStep s tl[i]).2.2) := by
  induction tl generalizing i with
  | nil => simp at hi
  | cons a tl ih =>
    cases i with
    | zero => rfl
    | succ n =>
      have hn : n < tl.length := by simpa using hi
      simp only [stepAt, ih n hn, List.getElem_cons_succ, List.take_succ_cons,
        List.drop_succ_cons, List.cons_append]

lemma stepAt_oob (s : MTState) (tl : List RdTrack) (i : Nat) (h : tl.length ≤ i) :
    stepAt s tl i = (s, tl, MicroOut.silent) := by
  induction tl generalizing i with
  | nil => rfl
  | cons a tl ih =>
    cases i with
    | zero => simp at h
    | succ n => simp only [stepAt, ih n (by simpa using h)]

lemma handed_le_msum (t : RdTrack) (tl : List RdTrack) (h : t ∈ tl) :
    handed t ≤ msum tl := by
  induction tl with
  | nil => simp at h
  | cons a R ih =>
    rw [msum_cons]
    rcases List.mem_cons.mp h with h | h
    · subst h; exact Multiset.le_add_right _ _
    · exact le_trans (ih h) (Multiset.le_add_left _ _)

lemma msum_bound (B EOF Q k : Nat) (tr : TrState) (hinv : SysInv B EOF Q k tr)
    (t : RdTrack) (ht : t ∈ tr.readers) :
    ∀ x ∈ t.del ++ pendList t.rd, x < clR (min EOF Q) tr.stream := by
  intro x hx
  have h1 : x ∈ handed t := by
    unfold handed
    rw [List.mem_append] at hx
    rcases hx with h | h
    · exact Multiset.mem_add.mpr (Or.inl (by simpa using h))
    · exact Multiset.mem_add.mpr (Or.inr (by simpa using h))
  have h2 : x ∈ msum tr.readers := Multiset.mem_of_le (handed_le_msum t _ ht) h1
  rw [hinv.2.2.2.2] at h2
  exact Multiset.mem_range.mp h2

/-- The system invariant is preserved by scheduling any one reader. -/
lemma stepAt_pres (B EOF Q k : Nat) (hP : Params B EOF Q k) (tr : TrState) (i : Nat)
    (hinv : SysInv B EOF Q k tr) :
    SysInv B EOF Q k ⟨(stepAt tr.stream tr.readers i).1,
      (stepAt tr.stream tr.readers i).2.1⟩ := by
  by_cases hi : i < tr.readers.length
  · obtain ⟨hgs, hlen, hphi, hall, hmsum⟩ := hinv
    have hmem : tr.readers[i] ∈ tr.readers := List.getElem_mem hi
    have hbound := msum_bound B EOF Q k tr ⟨hgs, hlen, hphi, hall, hmsum⟩ tr.readers[i] hmem
    have hdc : tr.readers = tr.readers.take i ++ tr.readers[i] :: tr.readers.drop (i + 1) := by
      conv_lhs => rw [← List.take_append_drop i tr.readers]
      rw [List.drop_eq_getElem_cons hi]
    have hac : armedCount tr.readers =
        (armedCount (tr.readers.take i) + armedCount (tr.readers.drop (i + 1))) +
          (if tr.readers[i].phase = RPhase.armed then 1 else 0) := by
      conv_lhs => rw [hdc]
      rw [armedCount_append, armedCount_cons]
      ring
    have hA : armedCount (tr.readers.take i) + armedCount (tr.readers.drop (i + 1)) + 1 ≤ k := by
      have h1 := armedCount_le_length (tr.readers.take i)
      have h2 := armedCount_le_length (tr.readers.drop (i + 1))
      have h3 : (tr.readers.take i).length + (1 + (tr.readers.drop (i + 1)).length) =
          tr.readers.length := by
        conv_rhs => rw [hdc]
        simp
        omega
      omega
    have hphi2 : tr.stream.stream_off +
        B * ((armedCount (tr.readers.take i) + armedCount (tr.readers.drop (i + 1))) +
          (if tr.readers[i].phase = RPhase.armed then 1 else 0)) <
        min EOF Q + B * (k + 1) := by
      rw [← hac]
      exact hphi
    obtain ⟨hgs2, hclmono, hphi3, hper2, dl, hdl1, hdl2⟩ :=
      microStep_pres B EOF Q k hP tr.stream tr.readers[i]
        (armedCount (tr.readers.take i) + armedCount (tr.readers.drop (i + 1))) hA hgs
        hphi2 (hall tr.readers[i] hmem) hbound
    rw [stepAt_getElem tr.stream tr.readers i hi]
    have hclcap : clOf (min EOF Q) (microStep tr.stream tr.readers[i]).1 ≤ min EOF Q :=
      Nat.min_le_right _ _
    refine ⟨hgs2, ?_, ?_, ?_, ?_⟩
    · simp only [List.length_append, List.length_cons, List.length_take, List.length_drop]
      omega
    · rw [armedCount_append, armedCount_cons]
      have heq : armedCount (tr.readers.take i) +
          ((if (microStep tr.stream tr.readers[i]).2.1.phase = RPhase.armed then 1 else 0) +
            armedCount (tr.readers.drop (i + 1))) =
          (armedCount (tr.readers.take i) + armedCount (tr.readers.drop (i + 1))) +
            (if (microStep tr.stream tr.readers[i]).2.1.phase = RPhase.armed then 1 else 0) := by
        ring
      rw [heq]
      exact hphi3
    · intro t ht
      rw [List.mem_append, List.mem_cons] at ht
      rcases ht with ht | ht | ht
      · exact PerR_mono _ _ _ hclmono hclcap t (hall t (List.take_subset i tr.readers ht))
      · subst ht; exact hper2
      · exact PerR_mono _ _ _ hclmono hclcap t (hall t (List.drop_subset (i + 1) tr.readers ht))
    · rw [msum_append, msum_cons, hdl1, hdl2]
      have hmsum2 : msum (tr.readers.take i) +
          (handed tr.readers[i] + msum (tr.readers.drop (i + 1))) =
          Multiset.range (clR (min EOF Q) tr.stream) := by
        rw [← msum_cons, ← msum_append, ← hdc]
        exact hmsum
      rw [← hmsum2]
      abel
  · push_neg at hi
    rw [stepAt_oob _ _ _ hi]
    exact hinv

/-- The system invariant is preserved by any schedule. -/
lemma runTr_pres (B EOF Q k : Nat) (hP : Params B EOF Q k) (sched : List Nat) (tr : TrState)
    (hinv : SysInv B EOF Q k tr) : SysInv B EOF Q k (runTr tr sched) := by
  induction sched generalizing tr with
  | nil => exact hinv
  | cons i sched ih =>
    rw [runTr]
    exact ih _ (stepAt_pres B EOF Q k hP tr i hinv)

/-- The system invariant holds initially: any stream satisfying the stream
facts with `stream_off` at the header boundary, paired with any number of
fresh readers. -/
lemma SysInv_start (B EOF Q k : Nat) (hP : Params B EOF Q k) (s : MTState)
    (hgs : GS B EOF Q s) (hso : s.stream_off = header_size) :
    SysInv B EOF Q k ⟨s, List.replicate k ⟨freshReader, RPhase.idle, [], false⟩⟩ := by
  have hcap := cap_aligned B EOF Q k hP
  obtain ⟨⟨c, hc1, hcB⟩, _, _, _⟩ := hP
  have hB9 : 9 ≤ B := by unfold edge_size at hcB; omega
  have hfr : pendList freshReader = [] := rfl
  have hac : armedCount (List.replicate k (⟨freshReader, RPhase.idle, [], false⟩ : RdTrack)) = 0 := by
    unfold armedCount
    rw [List.countP_eq_zero]
    intro a ha
    rw [List.eq_of_mem_replicate ha]
    simp
  have hcl : clOf (min EOF Q) s = header_size := by
    unfold clOf
    rw [hso]
    exact Nat.min_eq_left hcap.1
  refine ⟨hgs, by simp, ?_, ?_, ?_⟩
  · dsimp only
    rw [hac, hso]
    have hpos : 0 < B * (k + 1) := Nat.mul_pos (by omega) (by omega)
    have h12 := hcap.1
    unfold header_size at *
    omega
  · intro t ht
    rw [List.eq_of_mem_replicate ht]
    refine ⟨⟨0, rfl⟩, ⟨0, rfl⟩, by simp [freshReader], ?_, ?_, ?_, ?_⟩
    · rw [hfr]
      simp
    · intro h; exact absurd h (by simp)
    · intro h; exact absurd h (by simp)
    · intro h; exact absurd h (by simp)
  · dsimp only
    have hclR : clR (min EOF Q) s = 0 := by
      unfold clR
      rw [hcl]
      simp
    rw [hclR]
    unfold msum handed
    rw [List.map_replicate]
    rw [hfr]
    simp

lemma msum_eq_delAll (tl : List RdTrack) (h : ∀ t ∈ tl, pendList t.rd = []) :
    msum tl = (delAll tl : Multiset Nat) := by
  induction tl with
  | nil => rfl
  | cons t R ih =>
    rw [msum_cons, ih (fun x hx => h x (List.mem_cons_of_mem _ hx))]
    unfold handed
    rw [h t (List.mem_cons_self _ _)]
    have hd : delAll (t :: R) = t.del ++ delAll R := rfl
    rw [hd]
    simp

lemma map_range_getD (l : List GraphUpdate) (d : GraphUpdate) :
    (List.range l.length).map (fun i => l.getD i d) = l := by
  apply List.ext_getElem
  · simp
  · intro i h1 h2
    simp only [List.getElem_map, List.getElem_range]
    exact List.getD_eq_getElem l d h2

/-- Reading off the invariant at a final state: once every reader has
reported `BREAKPOINT` (and there is at least one reader), the delivered
records are exactly the record range up to the boundary `min end_of_file
query_index`, and each reader’s delivery order is strictly increasing. -/
lemma SysInv_final (B EOF Q k : Nat) (tr : TrState) (hinv : SysInv B EOF Q k tr)
    (t0 : RdTrack) (ht0 : t0 ∈ tr.readers)
    (hbp : ∀ t ∈ tr.readers, t.bp = true) :
    (delAll tr.readers : Multiset Nat) =
      Multiset.range ((min EOF Q - header_size) / edge_size) ∧
    ∀ t ∈ tr.readers, List.Pairwise (fun a b => a < b) t.del := by
  obtain ⟨hgs, hlen, hphi, hall, hmsum⟩ := hinv
  have hpend : ∀ t ∈ tr.readers, pendList t.rd = [] := fun t ht =>
    ((hall t ht).2.2.2.2.1 (hbp t ht)).1
  have hcl : clOf (min EOF Q) tr.stream = min EOF Q :=
    ((hall t0 ht0).2.2.2.2.1 (hbp t0 ht0)).2
  constructor
  · rw [← msum_eq_delAll tr.readers hpend, hmsum]
    unfold clR
    rw [hcl]
  · intro t ht
    have hp := (hall t ht).2.2.2.1
    rw [hpend t ht, List.append_nil] at hp
    exact hp

lemma params_default (M c k : Nat) (hc : 1 ≤ c)
    (hov : 12 + 9 * M + (k + 2) * (9 * c) < U64MAX) :
    Params (9 * c) (12 + 9 * M) U64MAX k := by
  refine ⟨⟨c, hc, rfl⟩, ⟨M, rfl⟩, Or.inl rfl, ?_⟩
  exact hov

lemma freshMT_eq (M c : Nat) (hov : 12 + 9 * M < U64) :
    freshMT M (9 * c) = ⟨9 * c, 12 + 9 * M, 12, U64MAX, false⟩ := by
  unfold freshMT edge_size header_size
  have h1 : 9 * c - 9 * c % 9 = 9 * c := by
    rw [Nat.mul_mod_right]
    omega
  have h2 : (M * 9 + 12) % U64 = 12 + 9 * M := by
    rw [Nat.mod_eq_of_lt (by omega)]
    ring
  rw [h1, h2]

/-- **C1.** Exactly-once delivery across readers of the multi-reader
stream: for a file of `M` records, block size `9 * c`, and `k ≥ 1` readers
driven by any interleaving (any schedule of atomic micro-steps) that ends
with every reader having reported `BREAKPOINT`, the multiset union of the
readers’ delivered record indices is exactly `{0, …, M - 1}` — so mapping
the indices to the file’s records yields exactly the file’s update sequence,
no record duplicated or dropped — and each reader’s local stream is strictly
increasing in file order. -/
theorem C1_exactly_once_delivery (M c k : Nat) (file : List GraphUpdate) (d : GraphUpdate)
    (hc : 1 ≤ c) (hk : 1 ≤ k) (hlen : file.length = M)
    (hov : 12 + 9 * M + (k + 2) * (9 * c) < U64MAX)
    (sched : List Nat)
    (hbp : ∀ t ∈ (runTr (initTr M (9 * c) k) sched).readers, t.bp = true) :
    (delAll (runTr (initTr M (9 * c) k) sched).readers : Multiset Nat) =
      Multiset.range M ∧
    Multiset.map (fun i => file.getD i d)
        (delAll (runTr (initTr M (9 * c) k) sched).readers : Multiset Nat) =
      (file : Multiset GraphUpdate) ∧
    ∀ t ∈ (runTr (initTr M (9 * c) k) sched).readers,
      List.Pairwise (fun a b => a < b) t.del := by
  have hP := params_default M c k hc hov
  have hUU : U64MAX < U64 := by unfold U64MAX U64; omega
  have hfr := freshMT_eq M c (by omega)
  have hgs : GS (9 * c) (12 + 9 * M) U64MAX (freshMT M (9 * c)) := by
    rw [hfr]
    exact ⟨rfl, rfl, rfl, rfl, Nat.le.refl, ⟨0, rfl⟩⟩
  have hso : (freshMT M (9 * c)).stream_off = header_size := rfl
  have hstart : SysInv (9 * c) (12 + 9 * M) U64MAX k (initTr M (9 * c) k) :=
    SysInv_start (9 * c) (12 + 9 * M) U64MAX k hP (freshMT M (9 * c)) hgs hso
  have hrun := runTr_pres (9 * c) (12 + 9 * M) U64MAX k hP sched _ hstart
  have hlen2 : (runTr (initTr M (9 * c) k) sched).readers.length = k := hrun.2.1
  have hne : (runTr (initTr M (9 * c) k) sched).readers ≠ [] := by
    intro h
    rw [h] at hlen2
    simp at hlen2
    omega
  obtain ⟨t0, ht0⟩ := List.exists_mem_of_ne_nil _ hne
  have hfin := SysInv_final (9 * c) (12 + 9 * M) U64MAX k _ hrun t0 ht0 hbp
  have hcap : min (12 + 9 * M) U64MAX = 12 + 9 * M := Nat.min_eq_left (by omega)
  have hM : (min (12 + 9 * M) U64MAX - header_size) / edge_size = M := by
    rw [hcap]
    unfold header_size edge_size
    omega
  rw [hM] at hfin
  refine ⟨hfin.1, ?_, hfin.2⟩
  rw [hfin.1, ← hlen, ← Multiset.coe_range, Multiset.map_coe, map_range_getD]

lemma mem_delAll_msum (x : Nat) (tl : List RdTrack) (h : x ∈ delAll tl) : x ∈ msum tl := by
  induction tl with
  | nil => simp [delAll] at h
  | cons t R ih =>
    rw [msum_cons]
    have hd : delAll (t :: R) = t.del ++ delAll R := rfl
    rw [hd, List.mem_append] at h
    rcases h with h | h
    · refine Multiset.mem_add.mpr (Or.inl ?_)
      unfold handed
      exact Multiset.mem_add.mpr (Or.inl (by simpa using h))
    · exact Multiset.mem_add.mpr (Or.inr (ih h))

lemma register_query_fresh (M c q : Nat) (hq1 : 1 ≤ q) (hqM : q ≤ M)
    (hov : 12 + 9 * M < U64) :
    register_query (freshMT M (9 * c)) q =
      (⟨9 * c, 12 + 9 * M, 12, 12 + 9 * q, false⟩, true) := by
  rw [freshMT_eq M c hov]
  unfold register_query
  have h1 : (header_size + q * edge_size) % U64 = 12 + 9 * q := by
    unfold header_size edge_size
    rw [Nat.mod_eq_of_lt (by omega)]
    ring
  simp only [h1]
  rw [if_neg (show ¬(12 + 9 * q ≤ 12) by omega)]

/-- **C2 (amended).** After a successful `register_query q` on a fresh
multi-reader stream (`1 ≤ q ≤ M`), no reader is ever handed an update with
record index `≥ q` before `post_query_resume`, and once every reader has
returned `Breakpoint` (any `k ≥ 1`, any schedule) the multiset of delivered
record indices is exactly `{0, …, q - 1}` — the ingested update count is
exactly `q`.  (The original claim’s further clause that no `Breakpoint`
precedes delivery of all updates below `q` is refuted by
`C2_breakpoint_before_q_cex`: a reader can report `Breakpoint` while another
reader still holds undelivered updates below `q` in its private buffer.) -/
theorem C2_query_boundary (M c k q : Nat) (hc : 1 ≤ c) (hq1 : 1 ≤ q) (hqM : q ≤ M)
    (hov : 12 + 9 * M + (k + 2) * (9 * c) < U64MAX) (sched : List Nat) :
    (register_query (freshMT M (9 * c)) q).2 = true ∧
    (∀ x ∈ delAll (runTr ⟨(register_query (freshMT M (9 * c)) q).1,
        List.replicate k ⟨freshReader, RPhase.idle, [], false⟩⟩ sched).readers, x < q) ∧
    (1 ≤ k →
      (∀ t ∈ (runTr ⟨(register_query (freshMT M (9 * c)) q).1,
          List.replicate k ⟨freshReader, RPhase.idle, [], false⟩⟩ sched).readers, t.bp = true) →
      (delAll (runTr ⟨(register_query (freshMT M (9 * c)) q).1,
          List.replicate k ⟨freshReader, RPhase.idle, [], false⟩⟩ sched).readers :
        Multiset Nat) = Multiset.range q) := by
  have hUU : U64MAX < U64 := by unfold U64MAX U64; omega
  have hreg := register_query_fresh M c q hq1 hqM (by omega)
  have hP : Params (9 * c) (12 + 9 * M) (12 + 9 * q) k := by
    refine ⟨⟨c, hc, rfl⟩, ⟨M, rfl⟩, Or.inr ⟨q, rfl, by omega⟩, ?_⟩
    unfold U64MAX U64 at hov ⊢
    omega
  have hgs : GS (9 * c) (12 + 9 * M) (12 + 9 * q) (register_query (freshMT M (9 * c)) q).1 := by
    rw [hreg]
    exact ⟨rfl, rfl, rfl, rfl, Nat.le.refl, ⟨0, rfl⟩⟩
  have hso : (register_query (freshMT M (9 * c)) q).1.stream_off = header_size := by
    rw [hreg]
    rfl
  have hstart := SysInv_start (9 * c) (12 + 9 * M) (12 + 9 * q) k hP
    (register_query (freshMT M (9 * c)) q).1 hgs hso
  have hrun := runTr_pres (9 * c) (12 + 9 * M) (12 + 9 * q) k hP sched _ hstart
  have hcap : min (12 + 9 * M) (12 + 9 * q) = 12 + 9 * q := Nat.min_eq_right (by omega)
  refine ⟨by rw [hreg], ?_, ?_⟩
  · intro x hx
    have hx2 := mem_delAll_msum x _ hx
    rw [hrun.2.2.2.2] at hx2
    have hx3 := Multiset.mem_range.mp hx2
    have hclle : clR (min (12 + 9 * M) (12 + 9 * q))
        (runTr ⟨(register_query (freshMT M (9 * c)) q).1,
          List.replicate k ⟨freshReader, RPhase.idle, [], false⟩⟩ sched).stream ≤ q := by
      unfold clR clOf
      rw [hcap]
      have hmin : min (runTr ⟨(register_query (freshMT M (9 * c)) q).1,
          List.replicate k ⟨freshReader, RPhase.idle, [], false⟩⟩ sched).stream.stream_off
          (12 + 9 * q) ≤ 12 + 9 * q := Nat.min_le_right _ _
      unfold header_size edge_size
      omega
    omega
  · intro hk hbp
    have hlen2 : (runTr ⟨(register_query (freshMT M (9 * c)) q).1,
        List.replicate k ⟨freshReader, RPhase.idle, [], false⟩⟩ sched).readers.length = k :=
      hrun.2.1
    have hne : (runTr ⟨(register_query (freshMT M (9 * c)) q).1,
        List.replicate k ⟨freshReader, RPhase.idle, [], false⟩⟩ sched).readers ≠ [] := by
      intro h
      rw [h] at hlen2
      simp at hlen2
      omega
    obtain ⟨t0, ht0⟩ := List.exists_mem_of_ne_nil _ hne
    have hfin := SysInv_final (9 * c) (12 + 9 * M) (12 + 9 * q) k _ hrun t0 ht0 hbp
    have hq : (min (12 + 9 * M) (12 + 9 * q) - header_size) / edge_size = q := by
      rw [hcap]
      unfold header_size edge_size
      omega
    rw [hq] at hfin
    exact hfin.1

/-- Witness for `C1_exactly_once_delivery`: three records, two readers,
block size 18, a concrete schedule ending with both readers at
`BREAKPOINT`. -/
theorem C1_exactly_once_delivery_witness :
    (∀ t ∈ (runTr (initTr 3 18 2) [0, 0, 0, 0, 0, 0, 1]).readers, t.bp = true) ∧
    ((delAll (runTr (initTr 3 18 2) [0, 0, 0, 0, 0, 0, 1]).readers : Multiset Nat) =
        Multiset.range 3 ∧
      Multiset.map (fun i => fileW.getD i breakpointUpd)
          (delAll (runTr (initTr 3 18 2) [0, 0, 0, 0, 0, 0, 1]).readers : Multiset Nat) =
        (fileW : Multiset GraphUpdate) ∧
      ∀ t ∈ (runTr (initTr 3 18 2) [0, 0, 0, 0, 0, 0, 1]).readers,
        List.Pairwise (fun a b => a < b) t.del) :=
  ⟨by decide, C1_exactly_once_delivery 3 2 2 fileW breakpointUpd (by decide) (by decide)
    (by decide) (by decide) [0, 0, 0, 0, 0, 0, 1] (by decide)⟩

/-- Counterexample to C2’s ordering clause “no Breakpoint is returned
before all updates with index `< q` have been delivered to some reader”:
with 2 readers and `register_query 2` on a 2-record file, reader 0 arms,
fetches the whole 2-record block and delivers update 0; reader 1 then hits
the guard (`stream_off` already at the boundary) and returns `BREAKPOINT`
*before* reader 0 delivers update 1 from its private buffer. -/
theorem C2_breakpoint_before_q_cex :
    (register_query (freshMT 2 18) 2).2 = true ∧
    runOuts ⟨(register_query (freshMT 2 18) 2).1,
        List.replicate 2 ⟨freshReader, RPhase.idle, [], false⟩⟩ [0, 0, 1, 0] =
      [MicroOut.silent, MicroOut.upd 0, MicroOut.brk, MicroOut.upd 1] := by
  decide

/-- Witness for `C2_query_boundary`: a 2-record file, two readers,
`register_query 1`, and a schedule ending with both readers at
`BREAKPOINT`. -/
theorem C2_query_boundary_witness :
    (1 : Nat) ≤ 1 ∧
    ((register_query (freshMT 2 18) 1).2 = true ∧
      (∀ x ∈ delAll (runTr ⟨(register_query (freshMT 2 18) 1).1,
          List.replicate 2 ⟨freshReader, RPhase.idle, [], false⟩⟩ [0, 0, 0, 1]).readers,
        x < 1) ∧
      (1 ≤ 2 →
        (∀ t ∈ (runTr ⟨(register_query (freshMT 2 18) 1).1,
            List.replicate 2 ⟨freshReader, RPhase.idle, [], false⟩⟩ [0, 0, 0, 1]).readers,
          t.bp = true) →
        (delAll (runTr ⟨(register_query (freshMT 2 18) 1).1,
            List.replicate 2 ⟨freshReader, RPhase.idle, [], false⟩⟩ [0, 0, 0, 1]).readers :
          Multiset Nat) = Multiset.range 1)) :=
  ⟨by decide, C2_query_boundary 2 2 2 1 (by decide) (by decide) (by decide) (by decide)
    [0, 0, 0, 1]⟩
